import Mathlib

/-!
Verification development for the plant-knowledge acquisition subsystem of the
greenthumb repository (`supabase/functions/greenthumb-chat/trefle/`):

* `extractors.ts` — plant-mention extraction (vocabulary, regex patterns,
  confidence heuristic);
* `cache.ts` — the generic TTL cache (`TrefleCache`), the conversation plant
  registry (`ConversationPlantRegistry`) and search-key normalization;
* `client.ts` — the sliding-window rate limiter, the retrying HTTP `request`
  helper and `searchPlants`.

The TypeScript code is shallowly embedded: JavaScript `Map`s become
association lists with `Map` semantics (update-in-place keeps the key's
insertion position, `delete` removes the key), `Date.now()` becomes explicit
`now` arguments, the singleton registry/limiter become explicit state values
threaded through the functions, and HTTP outcomes become an explicit
`Nat → Outcome` oracle (outcome of each successive underlying call).
JavaScript's stable comparator sort (`Array.prototype.sort`) is modelled by a
structurally recursive stable insertion sort (a stable sort's output is
uniquely determined by the comparator, so this is the same function).
Strings are modelled over their character lists; `toLowerCase`, `trim` and
the regular expressions used by the extractor are modelled for ASCII input
(all vocabulary, context words and pattern literals in the source are ASCII).
-/

set_option maxRecDepth 100000

namespace GreenThumb

open scoped List

/-! ## Character and string primitives (JS semantics, ASCII) -/

/-- ASCII lowercasing of a single character, as `String.prototype.toLowerCase`
acts on ASCII input. -/
def lowerChar (c : Char) : Char :=
  if 'A' ≤ c ∧ c ≤ 'Z' then Char.ofNat (c.toNat + 32) else c

/-- Model of `String.prototype.toLowerCase` (ASCII). -/
def jsToLower (s : String) : String :=
  ⟨s.data.map lowerChar⟩

/-- The JavaScript whitespace class `\s` (the characters relevant to this
code base; the full JS class also contains further Unicode space
separators, none of which occur in the modelled strings). -/
def jsWs (c : Char) : Bool :=
  c = ' ' ∨ c = '\t' ∨ c = '\n' ∨ c = '\r' ∨ c = '\x0b' ∨ c = '\x0c' ∨ c = ' '

/-- Strip leading and trailing JS whitespace from a character list. -/
def jsTrimList (cs : List Char) : List Char :=
  ((cs.dropWhile jsWs).reverse.dropWhile jsWs).reverse

/-- Model of `String.prototype.trim`. -/
def jsTrim (s : String) : String :=
  ⟨jsTrimList s.data⟩

/-- The JS regex word-character class `\w` = `[A-Za-z0-9_]`. -/
def wordChar (c : Char) : Bool :=
  c.isAlphanum || c = '_'

/-- Character comparison, optionally case-insensitive (the `i` regex flag). -/
def charEqCi (ci : Bool) (a b : Char) : Bool :=
  if ci then lowerChar a = lowerChar b else a = b

/-- Does the pattern occur literally at the start of `cs`
(case-insensitively when `ci` is set)? -/
def litHere (ci : Bool) : List Char → List Char → Bool
  | [], _ => true
  | _ :: _, [] => false
  | p :: ps, c :: cs => charEqCi ci p c && litHere ci ps cs

/-- Does the pattern occur literally at offset `i` of `cs`? -/
def litAt (ci : Bool) (pat cs : List Char) (i : Nat) : Bool :=
  litHere ci pat (cs.drop i)

/-- Model of `String.prototype.includes` (both arguments are already
lowercased at every call site in the source). -/
def strIncludes (hay needle : String) : Bool :=
  (List.range (hay.data.length + 1)).any (fun i => litAt false needle.data hay.data i)

/-- Length of the maximal run of characters satisfying `p` at the head of the
list (used for single-character-class repetition in the regex model). -/
def classRun (p : Char → Bool) : List Char → Nat
  | [] => 0
  | c :: cs => if p c then classRun p cs + 1 else 0

/-- Replace every maximal run of JS whitespace by a single space, as
`.replace(/\s+/g, " ")` does.  The `prevWs` flag records whether the
previous character was part of a whitespace run. -/
def collapseWsAux : Bool → List Char → List Char
  | _, [] => []
  | prevWs, c :: cs =>
    if jsWs c then
      if prevWs then collapseWsAux true cs else ' ' :: collapseWsAux true cs
    else c :: collapseWsAux false cs

/-- Model of `.replace(/\s+/g, " ")` on a character list. -/
def collapseWsRuns (cs : List Char) : List Char :=
  collapseWsAux false cs

/-! ## Stable comparator sort

`Array.prototype.sort` with a comparator is a stable sort (ECMAScript 2019);
its output is uniquely determined by the comparator, so we model it with a
structurally recursive stable insertion sort (`stableSortBy`), which the
kernel can also evaluate on concrete inputs. -/

/-- Insert `x` behind every leading element `y` with `le y x`; this places a
newly processed element after all earlier elements it does not strictly
precede, which is exactly stable-sort placement. -/
def stableInsert (le : α → α → Bool) (x : α) : List α → List α
  | [] => [x]
  | y :: ys => if le y x then y :: stableInsert le x ys else x :: y :: ys

/-- Stable sort by the boolean relation `le` (model of the stable
`Array.prototype.sort(comparator)`). -/
def stableSortBy (le : α → α → Bool) (l : List α) : List α :=
  l.foldl (fun acc x => stableInsert le x acc) []

theorem stableInsert_perm (le : α → α → Bool) (x : α) (l : List α) :
    stableInsert le x l ~ x :: l := by
  induction l with
  | nil => simp [stableInsert]
  | cons y ys ih =>
    simp only [stableInsert]
    by_cases h : le y x = true
    · simp only [h, if_pos]
      exact (ih.cons y).trans (List.Perm.swap x y ys)
    · simp [h]

theorem stableSortBy_aux_perm (le : α → α → Bool) :
    ∀ (l acc : List α), l.foldl (fun acc x => stableInsert le x acc) acc ~ acc ++ l := by
  intro l
  induction l with
  | nil => simp
  | cons x xs ih =>
    intro acc
    calc (x :: xs).foldl (fun acc x => stableInsert le x acc) acc
        = xs.foldl (fun acc x => stableInsert le x acc) (stableInsert le x acc) := rfl
      _ ~ stableInsert le x acc ++ xs := ih _
      _ ~ (x :: acc) ++ xs := (stableInsert_perm le x acc).append_right xs
      _ ~ acc ++ x :: xs := List.perm_middle.symm.trans (by simp)

theorem stableSortBy_perm (le : α → α → Bool) (l : List α) :
    stableSortBy le l ~ l := by
  simpa using stableSortBy_aux_perm le l []

theorem mem_stableSortBy {le : α → α → Bool} {l : List α} {a : α} :
    a ∈ stableSortBy le l ↔ a ∈ l :=
  (stableSortBy_perm le l).mem_iff

theorem mem_stableInsert {le : α → α → Bool} {l : List α} {a x : α} :
    a ∈ stableInsert le x l ↔ a = x ∨ a ∈ l := by
  rw [(stableInsert_perm le x l).mem_iff, List.mem_cons]

theorem pairwise_stableInsert {le : α → α → Bool}
    (total : ∀ a b, le a b || le b a)
    (htrans : ∀ a b c, le a b → le b c → le a c)
    {l : List α} (h : l.Pairwise (le · ·)) (x : α) :
    (stableInsert le x l).Pairwise (le · ·) := by
  induction l with
  | nil => simp [stableInsert]
  | cons y ys ih =>
    rcases List.pairwise_cons.mp h with ⟨hy, hys⟩
    simp only [stableInsert]
    by_cases hle : le y x = true
    · simp only [hle, if_pos]
      refine List.pairwise_cons.mpr ⟨?_, ih hys⟩
      intro b hb
      rcases mem_stableInsert.mp hb with rfl | hb
      · exact hle
      · exact hy b hb
    · simp only [hle, if_neg, Bool.false_eq_true, not_false_iff]
      have hxy : le x y = true := by
        have := total y x
        simp [hle] at this
        exact this
      refine List.pairwise_cons.mpr ⟨?_, h⟩
      intro b hb
      rcases List.mem_cons.mp hb with rfl | hb
      · exact hxy
      · exact htrans x y b hxy (hy b hb)

theorem pairwise_stableSortBy (le : α → α → Bool)
    (total : ∀ a b, le a b || le b a)
    (htrans : ∀ a b c, le a b → le b c → le a c)
    (l : List α) : (stableSortBy le l).Pairwise (le · ·) := by
  have aux : ∀ (l acc : List α), acc.Pairwise (le · ·) →
      (l.foldl (fun acc x => stableInsert le x acc) acc).Pairwise (le · ·) := by
    intro l
    induction l with
    | nil => intro acc h; simpa using h
    | cons x xs ih =>
      intro acc h
      exact ih _ (pairwise_stableInsert total htrans h x)
  exact aux l [] (by simp)

/-! ## Association lists with JavaScript `Map` semantics

A JS `Map` holds each key at most once, iterates in insertion order, keeps a
key's position on update, and appends new keys at the end. -/

/-- Model of `Map.prototype.get` (as an `Option`): value of the unique entry holding
the key. -/
def mapLookup : List (String × β) → String → Option β
  | [], _ => none
  | p :: m, k => if p.1 = k then some p.2 else mapLookup m k

/-- Model of `Map.prototype.set`: replace the value in place if the key is present
(a JS `Map` keeps the key's original insertion position on update),
otherwise append the new entry at the end. -/
def mapSet : List (String × β) → String → β → List (String × β)
  | [], k, v => [(k, v)]
  | p :: m, k, v => if p.1 = k then (k, v) :: m else p :: mapSet m k v

/-- Model of `Map.prototype.delete`: remove the entry holding the key (a `Map` holds
each key at most once). -/
def mapDelete : List (String × β) → String → List (String × β)
  | [], _ => []
  | p :: m, k => if p.1 = k then mapDelete m k else p :: mapDelete m k

theorem mapLookup_mapSet_self (m : List (String × β)) (k : String) (v : β) :
    mapLookup (mapSet m k v) k = some v := by
  induction m with
  | nil => simp [mapSet, mapLookup]
  | cons q m ih =>
    by_cases hq : q.1 = k
    · simp [mapSet, mapLookup, hq]
    · simp [mapSet, mapLookup, hq, ih]

theorem mapLookup_mapSet_ne (m : List (String × β)) (k k' : String) (v : β)
    (h : k' ≠ k) : mapLookup (mapSet m k v) k' = mapLookup m k' := by
  have hk : ¬ (k = k') := fun e => h e.symm
  induction m with
  | nil => simp [mapSet, mapLookup, hk]
  | cons q m ih =>
    by_cases hq : q.1 = k
    · have hq' : ¬ (q.1 = k') := by rw [hq]; exact hk
      simp [mapSet, mapLookup, hq, hk, hq']
    · by_cases hq' : q.1 = k'
      · simp [mapSet, mapLookup, hq, hq', h]
      · simp [mapSet, mapLookup, hq, hq', ih]

theorem mapLookup_mapDelete_self (m : List (String × β)) (k : String) :
    mapLookup (mapDelete m k) k = none := by
  induction m with
  | nil => simp [mapDelete, mapLookup]
  | cons q m ih =>
    by_cases hq : q.1 = k
    · simp [mapDelete, hq, ih]
    · simp [mapDelete, mapLookup, hq, ih]

theorem mapLookup_mapDelete_ne (m : List (String × β)) (k k' : String)
    (h : k' ≠ k) : mapLookup (mapDelete m k) k' = mapLookup m k' := by
  have hk : ¬ (k = k') := fun e => h e.symm
  induction m with
  | nil => simp [mapDelete]
  | cons q m ih =>
    by_cases hq : q.1 = k
    · have hq' : ¬ (q.1 = k') := by rw [hq]; exact hk
      simp [mapDelete, mapLookup, hq, hq', hk, ih]
    · by_cases hq' : q.1 = k'
      · simp [mapDelete, mapLookup, hq, hq', h]
      · simp [mapDelete, mapLookup, hq, hq', ih]

/-! ## A small backtracking regex engine

The extractor's `PLANT_PATTERNS` (extractors.ts lines 82-89) are regexes of
the shape `prefix (capture) suffix` whose quantifiers all repeat a
single-character class.  We model exactly that fragment: `reEnds` returns the
candidate end positions of a match starting at a given offset, in JavaScript
backtracking priority order (alternatives left to right, greedy repetition
longest first, lazy repetition shortest first), so the head of the returned
list is the end position the JS engine commits to. -/

/-- Regular-expression fragment used by the extractor patterns. -/
inductive RE where
  /-- a literal string -/
  | lit (s : String)
  /-- a single-character class -/
  | cls (p : Char → Bool)
  /-- repetition of a single-character class, `lo` to `hi` times
  (`hi = none` = unbounded); `lazyRep` selects lazy (`?`) repetition -/
  | rep (p : Char → Bool) (lo : Nat) (hi : Option Nat) (lazyRep : Bool)
  /-- concatenation -/
  | seq (a b : RE)
  /-- alternation, left alternative preferred -/
  | alt (a b : RE)
  /-- the `$` anchor (no `m` flag: end of input) -/
  | eos
  /-- the empty regex (used for an absent optional group) -/
  | eps

/-- Candidate match-end positions of `r` at offset `i` of `cs`, in JS
backtracking priority order.  `ci` is the `i` (case-insensitive) flag,
which affects literals; character classes are stored with their
case-sensitivity already applied. -/
def reEnds (ci : Bool) (cs : List Char) : RE → Nat → List Nat
  | .lit s, i => if litAt ci s.data cs i then [i + s.data.length] else []
  | .cls p, i =>
    match cs.drop i with
    | [] => []
    | c :: _ => if p c then [i + 1] else []
  | .rep p lo hi lz, i =>
    let run := classRun p (cs.drop i)
    let maxN := match hi with | none => run | some h => min run h
    if lo ≤ maxN then
      (List.range (maxN + 1 - lo)).map (fun k => if lz then i + lo + k else i + maxN - k)
    else []
  | .seq a b, i => (reEnds ci cs a i).flatMap (fun j => reEnds ci cs b j)
  | .alt a b, i => reEnds ci cs a i ++ reEnds ci cs b i
  | .eos, i => if i = cs.length then [i] else []
  | .eps, i => [i]

/-- An extractor pattern split around its single capture group:
`pre (cap) post`, with its case-insensitivity flag. -/
structure Pat where
  ci : Bool
  pre : RE
  cap : RE
  post : RE

/-- Try to match the pattern at exactly offset `s`; on success return the
backtracking-preferred `(captureStart, captureEnd, matchEnd)`. -/
def patMatchAt (p : Pat) (cs : List Char) (s : Nat) : Option (Nat × Nat × Nat) :=
  (reEnds p.ci cs p.pre s).findSome? fun e1 =>
    (reEnds p.ci cs p.cap e1).findSome? fun e2 =>
      (reEnds p.ci cs p.post e2).head?.map fun e3 => (e1, e2, e3)

/-- Leftmost match at or after `start` (how `exec` resumes from
`lastIndex`). -/
def patFindFrom (p : Pat) (cs : List Char) (start : Nat) : Option (Nat × Nat × Nat) :=
  (List.range (cs.length + 1 - start)).findSome? fun off => patMatchAt p cs (start + off)

/-- The successive capture-group strings produced by the
`while ((match = pattern.exec(text)) !== null)` loop: after each match,
`lastIndex` moves to the match end.  Every `PLANT_PATTERNS` match consumes
at least one character (each pattern has a non-empty mandatory part), so the
loop always advances; the fuel argument makes that termination explicit and
the guard `e3 ≤ idx` can never fire on these patterns. -/
def execCapturesAux (p : Pat) (cs : List Char) : Nat → Nat → List String
  | 0, _ => []
  | fuel + 1, idx =>
    match patFindFrom p cs idx with
    | none => []
    | some (c1, c2, e3) =>
      let capStr : String := ⟨(cs.drop c1).take (c2 - c1)⟩
      if e3 ≤ idx then [capStr]
      else capStr :: execCapturesAux p cs fuel e3

/-- All capture strings of the global-flag exec loop of `pattern` over
`text`. -/
def patternCaptures (p : Pat) (text : String) : List String :=
  execCapturesAux p cs (cs.length + 1) 0
where cs : List Char := text.data

/-! ## Extractor vocabulary and data model (extractors.ts) -/

/-- The curated static plant vocabulary (extractors.ts lines 13-67).  The
source stores it in a `Set`; the literal contains no duplicates, so the
insertion-ordered list is the same collection. -/
def COMMON_PLANT_NAMES : List String := [
  "tomato", "tomatoes", "potato", "potatoes", "carrot", "carrots", "lettuce", "spinach", "kale",
  "broccoli", "cauliflower", "cabbage", "celery", "cucumber", "cucumbers", "zucchini", "squash",
  "pumpkin", "pumpkins", "eggplant", "pepper", "peppers", "bell pepper", "chili", "chilies",
  "onion", "onions", "garlic", "leek", "leeks", "asparagus", "artichoke", "beet", "beets",
  "radish", "radishes", "turnip", "turnips", "parsnip", "parsnips", "corn", "peas", "green beans",
  "beans", "lentils", "chickpeas", "apple", "apples", "orange", "oranges", "lemon", "lemons",
  "lime", "limes", "grapefruit", "banana", "bananas", "grape", "grapes", "strawberry",
  "strawberries", "blueberry", "blueberries", "raspberry", "raspberries", "blackberry",
  "blackberries", "cherry", "cherries", "peach", "peaches", "plum", "plums", "apricot",
  "apricots", "mango", "mangoes", "pineapple", "pineapples", "watermelon", "cantaloupe",
  "honeydew", "melon", "kiwi", "papaya", "guava", "pomegranate", "fig", "figs", "date", "dates",
  "coconut", "coconuts", "avocado", "avocados", "basil", "oregano", "thyme", "rosemary", "sage",
  "mint", "peppermint", "spearmint", "parsley", "cilantro", "coriander", "dill", "chives",
  "tarragon", "marjoram", "bay leaf", "bay laurel", "lavender", "chamomile", "lemongrass",
  "fennel", "cumin", "turmeric", "ginger", "rose", "roses", "tulip", "tulips", "daisy", "daisies",
  "sunflower", "sunflowers", "lily", "lilies", "orchid", "orchids", "carnation", "carnations",
  "chrysanthemum", "dahlia", "dahlias", "peony", "peonies", "hydrangea", "hydrangeas", "marigold",
  "marigolds", "petunia", "petunias", "geranium", "geraniums", "begonia", "begonias", "zinnia",
  "zinnias", "pansy", "pansies", "violet", "violets", "iris", "irises", "daffodil", "daffodils",
  "hyacinth", "crocus", "amaryllis", "hibiscus", "jasmine", "gardenia", "magnolia", "camellia",
  "azalea", "rhododendron", "wisteria", "bougainvillea", "plumeria", "bird of paradise", "pothos",
  "philodendron", "monstera", "snake plant", "sansevieria", "spider plant", "peace lily",
  "rubber plant", "fiddle leaf fig", "ficus", "aloe", "aloe vera", "jade plant", "succulent",
  "succulents", "cactus", "cacti", "bamboo", "palm", "palms", "fern", "ferns", "boston fern",
  "maidenhair fern", "english ivy", "ivy", "dracaena", "zz plant", "chinese evergreen",
  "prayer plant", "calathea", "croton", "dieffenbachia", "anthurium", "bromeliad", "air plant",
  "tillandsia", "hoya", "string of pearls", "string of hearts", "oak", "maple", "pine", "spruce",
  "fir", "cedar", "birch", "ash", "elm", "willow", "poplar", "aspen", "beech", "hickory",
  "walnut", "chestnut", "cherry tree", "apple tree", "peach tree", "pear tree", "plum tree",
  "olive", "olive tree", "eucalyptus", "cypress", "redwood", "sequoia", "palm tree",
  "coconut palm", "magnolia tree", "dogwood", "redbud", "crepe myrtle", "japanese maple",
  "bonsai", "boxwood", "privet", "holly", "juniper", "yew", "forsythia", "lilac", "viburnum",
  "spirea", "barberry", "euonymus", "cotoneaster", "burning bush", "butterfly bush",
  "rose of sharon"]

/-- Plant-related context words (extractors.ts lines 70-79). -/
def PLANT_CONTEXT_WORDS : List String := [
  "plant", "plants", "grow", "growing", "grew", "grown", "garden", "gardening", "water",
  "watering", "prune", "pruning", "fertilize", "fertilizing", "harvest", "harvesting", "seed",
  "seeds", "seedling", "seedlings", "cutting", "cuttings", "propagate", "propagating", "repot",
  "repotting", "transplant", "transplanting", "care", "caring", "leaf", "leaves", "flower",
  "flowers", "bloom", "blooming", "blossom", "fruit", "fruits", "vegetable", "vegetables", "herb",
  "herbs", "tree", "trees", "shrub", "shrubs", "vine", "vines", "bush", "bushes", "pot", "potted",
  "indoor", "outdoor", "houseplant", "houseplants"]

/-- Common English stopwords excluded from pattern candidates
(extractors.ts lines 92-119). -/
def COMMON_ENGLISH_WORDS : List String := [
  "the", "a", "an", "and", "or", "but", "if", "then", "else", "when", "where", "what", "which",
  "who", "how", "why", "is", "are", "was", "were", "be", "been", "being", "have", "has", "had",
  "do", "does", "did", "will", "would", "could", "should", "may", "might", "must", "can", "this",
  "that", "these", "those", "it", "its", "they", "them", "their", "we", "us", "our", "you",
  "your", "he", "him", "his", "she", "her", "i", "me", "my", "some", "any", "all", "most", "many",
  "much", "more", "less", "few", "little", "lot", "lots", "very", "too", "also", "just", "only",
  "even", "still", "already", "always", "never", "ever", "often", "sometimes", "usually",
  "really", "quite", "rather", "pretty", "about", "after", "before", "between", "during",
  "through", "from", "into", "onto", "with", "without", "for", "of", "in", "on", "at", "to", "by",
  "up", "down", "out", "off", "over", "under", "again", "back", "here", "there", "now", "today",
  "tomorrow", "yesterday", "thing", "things", "way", "ways", "time", "times", "day", "days",
  "year", "years", "week", "weeks", "month", "months", "something", "anything", "everything",
  "nothing", "someone", "anyone", "everyone", "nobody", "anybody", "everybody", "place", "room",
  "house", "home", "work", "life", "world", "people", "person", "child", "children", "man", "men",
  "woman", "women", "good", "bad", "new", "old", "big", "small", "long", "short", "high", "low",
  "great", "other", "same", "different", "first", "last", "next", "right", "left", "best", "want",
  "need", "know", "think", "see", "look", "find", "give", "take", "come", "go", "make", "get",
  "say", "tell", "ask", "use", "try", "help", "start", "stop", "keep", "let", "put", "set",
  "turn", "show", "hear", "leave", "call", "run", "move", "live", "believe", "feel", "bring"]

/-- Mention confidence (`"high" | "medium" | "low"`). -/
inductive Confidence where
  | high
  | medium
  | low
deriving DecidableEq, Repr

/-- Mention source (`"exact_match" | "common_name" | "pattern" | "context"`). -/
inductive MentionSource where
  | exact_match
  | common_name
  | pattern
  | context
deriving DecidableEq, Repr

/-- Model of `PlantMention` (types.ts). -/
structure PlantMention where
  originalText : String
  normalizedName : String
  confidence : Confidence
  source : MentionSource
deriving DecidableEq, Repr

/-- The plant profile produced by `processSpeciesData` (client.ts lines
229-278, type `ProcessedPlantData` in types.ts).  Only the fields read by
the operations modelled here (registry keys and lookups, the extractor's
registry pass) are listed; the remaining payload fields (life-cycle, growth,
environment, appearance, raw record) are carried opaquely by the caches and
registry and never inspected by any modelled operation. -/
structure ProcessedPlantData where
  id : Nat
  slug : String
  scientificName : String
  commonName : Option String
  genus : String
deriving DecidableEq, Repr

/-! ## Conversation plant registry (cache.ts lines 460-537) -/

/-- Model of `ConversationPlantRegistry`: the insertion-ordered profile map and the
FIFO key order. -/
structure ConversationPlantRegistry where
  plants : List (String × ProcessedPlantData)
  mentionOrder : List String
deriving Repr

/-- Model of `maxPlants` capacity of the conversation registry. -/
def maxPlants : Nat := 20

/-- The empty registry (initial state of the singleton). -/
def emptyRegistry : ConversationPlantRegistry :=
  { plants := [], mentionOrder := [] }

/-- Model of `addPlant(key, plant)` (cache.ts lines 465-479): normalize the key; if it
is new, shift the oldest key off the mention order when at capacity — deleting
its profile only when the shifted key is truthy (`if (oldestKey)`), which a
JavaScript empty string is not — and push the key at the back of the mention
order; finally `set` the profile.  A `shift()` on an empty array yields
`undefined` (falsy), so nothing is deleted in that case either. -/
def ConversationPlantRegistry.addPlant (reg : ConversationPlantRegistry)
    (key : String) (plant : ProcessedPlantData) : ConversationPlantRegistry :=
  let normalizedKey := jsTrim (jsToLower key)
  let reg1 :=
    if (mapLookup reg.plants normalizedKey).isSome then reg
    else
      let reg0 :=
        if maxPlants ≤ reg.mentionOrder.length then
          match reg.mentionOrder with
          | [] => reg
          | oldestKey :: rest =>
            { plants := if oldestKey ≠ "" then mapDelete reg.plants oldestKey
                        else reg.plants,
              mentionOrder := rest }
        else reg
      { reg0 with mentionOrder := reg0.mentionOrder ++ [normalizedKey] }
  { reg1 with plants := mapSet reg1.plants normalizedKey plant }

/-- Model of `getPlant(key)` (cache.ts lines 481-483). -/
def ConversationPlantRegistry.getPlant (reg : ConversationPlantRegistry)
    (key : String) : Option ProcessedPlantData :=
  mapLookup reg.plants (jsTrim (jsToLower key))

/-- Model of `getAllPlants()` (cache.ts lines 507-509): the profiles in `Map`
insertion order. -/
def ConversationPlantRegistry.getAllPlants (reg : ConversationPlantRegistry) :
    List ProcessedPlantData :=
  reg.plants.map (·.2)

/-- Model of `getRecentPlants(count)` (cache.ts lines 511-517):
`mentionOrder.slice(-count)`, profiles looked up, missing entries filtered
out, reversed (most recent first).  For `count = 0`, JS evaluates
`slice(-0) = slice(0)`, i.e. the whole array. -/
def ConversationPlantRegistry.getRecentPlants (reg : ConversationPlantRegistry)
    (count : Nat) : List ProcessedPlantData :=
  let recentKeys :=
    if count = 0 then reg.mentionOrder
    else reg.mentionOrder.drop (reg.mentionOrder.length - count)
  ((recentKeys.map (fun k => mapLookup reg.plants k)).filterMap id).reverse

/-- Registry size (`get size()`, cache.ts lines 528-530). -/
def ConversationPlantRegistry.size (reg : ConversationPlantRegistry) : Nat :=
  reg.plants.length

/-! ## The six extraction patterns (extractors.ts lines 82-89)

Each pattern is split around its single capture group.  Patterns 1-5 carry
the `i` flag; pattern 6 is case-sensitive. -/

/-- Chain a head alternative and a list of further alternatives,
left-preferred. -/
def altChain : RE → List RE → RE
  | r, [] => r
  | r, s :: rest => .alt r (altChain s rest)

/-- A greedy optional group `(?:...)?` (present-first, as in JS). -/
def reOpt (r : RE) : RE := .alt r .eps

/-- Model of `\s+` (greedy). -/
def wsPlus : RE := .rep jsWs 1 none false

/-- Model of `\s+` followed by a literal (the shape of the suffix alternatives). -/
def wsThen (s : String) : RE := .seq wsPlus (.lit s)

/-- The terminator `(?:\s|$|,|\.|\?|!)` ending patterns 1, 3, 4, 5, 6. -/
def termCls : RE :=
  altChain (.cls jsWs) [.eos, .lit ",", .lit ".", .lit "?", .lit "!"]

/-- Model of `[a-z\s]` under the `i` flag. -/
def letterWs (c : Char) : Bool := c.isAlpha || jsWs c

/-- The capture `([a-z][a-z\s]{2,25}?)` (or `{2,20}?` for pattern 3) under
the `i` flag. -/
def capBody (maxRep : Nat) : RE :=
  .seq (.cls Char.isAlpha) (.rep letterWs 2 (some maxRep) true)

/-- Pattern 1: `/my\s+([a-z][a-z\s]{2,25}?)(?:\s+plant|\s+tree|\s+bush|\s+vine)?(?:\s|$|,|\.|\?|!)/gi`. -/
def pat1 : Pat :=
  { ci := true
    pre := .seq (.lit "my") wsPlus
    cap := capBody 25
    post := .seq (reOpt (altChain (wsThen "plant") [wsThen "tree", wsThen "bush", wsThen "vine"]))
      termCls }

/-- Pattern 2: `/the\s+([a-z][a-z\s]{2,25}?)(?:\s+plant|\s+tree|\s+bush|\s+vine|\s+is|\s+needs|\s+has|\s+looks)/gi`. -/
def pat2 : Pat :=
  { ci := true
    pre := .seq (.lit "the") wsPlus
    cap := capBody 25
    post := altChain (wsThen "plant") [wsThen "tree", wsThen "bush", wsThen "vine",
      wsThen "is", wsThen "needs", wsThen "has", wsThen "looks"] }

/-- Pattern 3: `/([a-z][a-z\s]{2,20}?)\s+(?:plant|tree|bush|vine|shrub|flower|herb)s?(?:\s|$|,|\.|\?|!)/gi`. -/
def pat3 : Pat :=
  { ci := true
    pre := .eps
    cap := capBody 20
    post := .seq wsPlus (.seq
      (altChain (.lit "plant") [.lit "tree", .lit "bush", .lit "vine", .lit "shrub",
        .lit "flower", .lit "herb"])
      (.seq (reOpt (.lit "s")) termCls)) }

/-- Pattern 4: `/(?:grow|plant|care\s+for|water|fertilize|prune|harvest|propagate)\s+(?:the\s+|my\s+|some\s+)?([a-z][a-z\s]{2,25}?)(?:\s|$|,|\.|\?|!)/gi`. -/
def pat4 : Pat :=
  { ci := true
    pre := .seq
      (altChain (.lit "grow") [.lit "plant", .seq (.lit "care") (.seq wsPlus (.lit "for")),
        .lit "water", .lit "fertilize", .lit "prune", .lit "harvest", .lit "propagate"])
      (.seq wsPlus (reOpt (altChain (.seq (.lit "the") wsPlus)
        [.seq (.lit "my") wsPlus, .seq (.lit "some") wsPlus])))
    cap := capBody 25
    post := termCls }

/-- Pattern 5: `/(?:about|regarding)\s+(?:the\s+|my\s+)?([a-z][a-z\s]{2,25}?)(?:\s+plant|\s+tree|\s+bush)?(?:\s|$|,|\.|\?|!)/gi`. -/
def pat5 : Pat :=
  { ci := true
    pre := .seq (.alt (.lit "about") (.lit "regarding"))
      (.seq wsPlus (reOpt (.alt (.seq (.lit "the") wsPlus) (.seq (.lit "my") wsPlus))))
    cap := capBody 25
    post := .seq (reOpt (altChain (wsThen "plant") [wsThen "tree", wsThen "bush"])) termCls }

/-- Pattern 6: `/([A-Z][a-z]+\s+[a-z]+)(?:\s|$|,|\.|\?|!)/g` (no `i` flag). -/
def pat6 : Pat :=
  { ci := false
    pre := .eps
    cap := .seq (.cls Char.isUpper) (.seq (.rep Char.isLower 1 none false)
      (.seq (.rep jsWs 1 none false) (.rep Char.isLower 1 none false)))
    post := termCls }

/-- Model of `PLANT_PATTERNS`, in source order. -/
def PLANT_PATTERNS : List Pat := [pat1, pat2, pat3, pat4, pat5, pat6]

/-! ## Extraction helper functions (extractors.ts lines 192-313) -/

/-- Model of `isCommonWord` (extractors.ts lines 303-305). -/
def isCommonWord (word : String) : Bool :=
  COMMON_ENGLISH_WORDS.contains (jsToLower word)

/-- The anchored binomial test `/^[A-Z][a-z]+\s+[a-z]+$/.test(candidate)`
(extractors.ts line 290).  The three classes are pairwise disjoint, so the
anchored match is equivalent to this run decomposition. -/
def binomialTest (s : String) : Bool :=
  match s.data with
  | [] => false
  | c :: rest =>
    c.isUpper &&
    (let r1 := classRun Char.isLower rest
     let t1 := rest.drop r1
     let r2 := classRun jsWs t1
     let t2 := t1.drop r2
     let r3 := classRun Char.isLower t2
     decide (1 ≤ r1) && decide (1 ≤ r2) && decide (1 ≤ r3) && (t2.drop r3).isEmpty)

/-- The dot `.` character class (no `s` flag: anything but a line
terminator). -/
def dotCh (c : Char) : Bool :=
  !(c = '\n' ∨ c = '\r' ∨ c = ' ' ∨ c = ' ')

/-- Does `\s+.{0,30}` followed by the literal `target` (case-insensitively)
match starting at offset `base`?  Used for the context-proximity regex of
`assessPlantNameConfidence`; as the regex is only `.test`ed, existence over
all split sizes is the exact semantics. -/
def gapThen (target : List Char) (cs : List Char) (base : Nat) : Bool :=
  (List.range (classRun jsWs (cs.drop base))).any fun k0 =>
    let k := k0 + 1
    (List.range 31).any fun d =>
      ((cs.drop (base + k)).take d).all dotCh && litAt true target cs (base + k + d)

/-- The context regex
`(w1|...|wn)\s+.{0,30}cand|cand\s+.{0,30}(w1|...|wn)` tested with the `i`
flag against the full text (extractors.ts lines 292-298).  `escapeRegex` is
the identity on every candidate the patterns can produce (letters and
whitespace only). -/
def ctxTest (cand full : String) : Bool :=
  let cs := full.data
  (List.range (cs.length + 1)).any fun i =>
    (PLANT_CONTEXT_WORDS.any fun w =>
      litAt true w.data cs i && gapThen cand.data cs (i + w.data.length)) ||
    (litAt true cand.data cs i && PLANT_CONTEXT_WORDS.any fun w =>
      gapThen w.data cs (i + cand.data.length))

/-- Model of `assessPlantNameConfidence` (extractors.ts lines 286-301).  Note that
`findPatternMatches` passes the already-lowercased candidate, which this
model mirrors at the call site. -/
def assessPlantNameConfidence (candidate fullText : String) : Confidence :=
  let normalized := jsToLower candidate
  if COMMON_PLANT_NAMES.contains normalized then .high
  else if binomialTest candidate then .high
  else if ctxTest candidate fullText then .medium
  else .low

/-- Model of `findRegistryMatches` (extractors.ts lines 192-228).  The ambient
`conversationRegistry` singleton is an explicit argument.  `plant.commonName
&& ...` makes an empty common name falsy, hence skipped. -/
def findRegistryMatches (text : String) (reg : ConversationPlantRegistry) :
    List PlantMention :=
  let normalizedText := jsToLower text
  (reg.getAllPlants).flatMap fun plant =>
    (match plant.commonName with
     | some cn =>
       if cn ≠ "" ∧ strIncludes normalizedText (jsToLower cn) then
         [{ originalText := cn, normalizedName := jsToLower cn,
            confidence := .high, source := .exact_match }]
       else []
     | none => []) ++
    (if strIncludes normalizedText (jsToLower plant.scientificName) then
       [{ originalText := plant.scientificName,
          normalizedName := jsToLower plant.scientificName,
          confidence := .high, source := .exact_match }]
     else []) ++
    (let genus := jsToLower plant.genus
     if strIncludes normalizedText genus ∧ 3 < genus.length then
       [{ originalText := plant.genus, normalizedName := genus,
          confidence := .medium, source := .exact_match }]
     else [])

/-- The comparator `(a, b) => b.length - a.length`: `a` is placed before `b`
iff the comparator is negative, so the stable-sort relation is
`b.length ≤ a.length` (longest first). -/
def lenDescLe (a b : String) : Bool := b.length ≤ a.length

/-- Model of `[...COMMON_PLANT_NAMES].sort((a, b) => b.length - a.length)`
(extractors.ts line 234). -/
def sortedPlantNames : List String := stableSortBy lenDescLe COMMON_PLANT_NAMES

/-- The word-boundary test of `\bname\b` at offset `i`: every vocabulary name
begins and ends with a word character, so `\b` holds there iff the adjacent
text character (when it exists) is not a word character. -/
def wordBoundaryAt (pat cs : List Char) (i : Nat) : Bool :=
  litAt true pat cs i &&
  (decide (i = 0) || !wordChar (cs.getD (i - 1) ' ')) &&
  (decide (cs.length ≤ i + pat.length) || !wordChar (cs.getD (i + pat.length) ' '))

/-- Model of `new RegExp("\\b" + escapeRegex(name) + "\\b", "i").test`-style matching
used via `words.match(regex)` (extractors.ts lines 237-238); `escapeRegex`
is the identity on the vocabulary (no regex metacharacters occur in it). -/
def containsWord (name text : String) : Bool :=
  (List.range (text.data.length + 1)).any fun i => wordBoundaryAt name.data text.data i

/-- The per-name body of the `findExactMatches` loop: push a mention when
`\bname\b` matches the lowercased text.  The matched slice `match[0]` equals
the name itself: the text is lowercased first and every vocabulary name is
lowercase, so the case-insensitive literal match can only produce the name. -/
def exactMatchFor (words : String) (name : String) : Option PlantMention :=
  if containsWord name words then
    some { originalText := name, normalizedName := jsToLower name,
           confidence := .high, source := .common_name }
  else none

/-- Model of `findExactMatches` (extractors.ts lines 230-251). -/
def findExactMatches (text : String) : List PlantMention :=
  sortedPlantNames.filterMap (exactMatchFor (jsToLower text))

/-- One step of the candidate-processing body of the
`while ((match = pattern.exec(text)))` loop (extractors.ts lines 261-280):
trim, length-filter, lowercase, dedup against `processedCandidates`,
stopword filter, confidence assessment, conditional push. -/
def processCandidate (text : String) (st : List PlantMention × List String)
    (rawCap : String) : List PlantMention × List String :=
  let candidate := jsTrim rawCap
  if candidate.length < 3 ∨ 30 < candidate.length then st
  else
    let normalized := jsToLower candidate
    if st.2.contains normalized then st
    else
      let processed := st.2 ++ [normalized]
      if isCommonWord normalized then (st.1, processed)
      else
        let confidence := assessPlantNameConfidence normalized text
        if confidence ≠ Confidence.low ∨ COMMON_PLANT_NAMES.contains normalized then
          (st.1 ++ [{ originalText := candidate, normalizedName := normalized,
                      confidence := confidence, source := .pattern }], processed)
        else (st.1, processed)

/-- Model of `findPatternMatches` (extractors.ts lines 253-284): the patterns run in
order, sharing one `processedCandidates` set. -/
def findPatternMatches (text : String) : List PlantMention :=
  (PLANT_PATTERNS.foldl
    (fun st p => (patternCaptures p text).foldl (processCandidate text) st)
    ([], [])).1

/-! ## `extractPlantMentions` (extractors.ts lines 125-163) -/

/-- The rank used by the final sort's comparator
(`confidenceOrder = \x7b high: 0, medium: 1, low: 2 \x7d`). -/
def confOrd : Confidence → Nat
  | .high => 0
  | .medium => 1
  | .low => 2

/-- The sort relation induced by the comparator
`confidenceOrder[a.confidence] - confidenceOrder[b.confidence]`. -/
def confLe (a b : PlantMention) : Bool :=
  confOrd a.confidence ≤ confOrd b.confidence

/-- One step of the shared push-if-new-normalizedName logic of the three
merge loops (state: mentions so far, `foundNames` in insertion order). -/
def addUnique (st : List PlantMention × List String) (m : PlantMention) :
    List PlantMention × List String :=
  if st.2.contains m.normalizedName then st
  else (st.1 ++ [m], st.2 ++ [m.normalizedName])

/-- Model of `extractPlantMentions` (extractors.ts lines 125-163): merge the registry
pass, the exact-vocabulary pass and the pattern pass (first occurrence of a
`normalizedName` wins), then stable-sort by confidence rank. -/
def extractPlantMentions (text : String) (reg : ConversationPlantRegistry) :
    List PlantMention :=
  let st1 := (findRegistryMatches text reg).foldl addUnique ([], [])
  let st2 := (findExactMatches text).foldl addUnique st1
  let st3 := (findPatternMatches text).foldl addUnique st2
  stableSortBy confLe st3.1

/-- Model of `normalizePlantName` (extractors.ts lines 311-313); the final
`.replace(/['’]/g, "'")` maps the curly quotes to an ASCII
apostrophe. -/
def fixQuote (c : Char) : Char :=
  if c = '‘' ∨ c = '’' then '\'' else c

/-- Model of `normalizePlantName` itself. -/
def normalizePlantName (name : String) : String :=
  ⟨(collapseWsRuns (jsTrimList (jsToLower name).data)).map fixQuote⟩

/-! ## The generic TTL cache (cache.ts lines 336-454) -/

/-- Model of `CacheEntry<T>` (types.ts): payload plus insertion instant. -/
structure CacheEntry (T : Type u) where
  data : T
  timestamp : Nat
deriving DecidableEq, Repr

/-- Default TTL (5 minutes). -/
def CACHE_TTL_MS : Nat := 5 * 60 * 1000

/-- Default capacity. -/
def MAX_CACHE_SIZE : Nat := 500

/-- Model of `TrefleCache<T>`: the entry map plus its configuration.  The `name`
field of the source is used only for log messages and is omitted. -/
structure TrefleCache (T : Type u) where
  cache : List (String × CacheEntry T)
  ttlMs : Nat
  maxSize : Nat
deriving Repr

/-- A fresh cache, as constructed (cache.ts lines 359-363). -/
def TrefleCache.mk' (ttlMs maxSize : Nat) : TrefleCache T :=
  { cache := [], ttlMs := ttlMs, maxSize := maxSize }

/-- Model of `get(key)` (cache.ts lines 365-375): a hit older than the TTL is deleted
and reported as `none`.  `Date.now()` is the explicit `now`; for `now <
timestamp` JS computes a negative age, never expired, which `Nat`
subtraction models by truncation to `0`. -/
def TrefleCache.get (c : TrefleCache T) (key : String) (now : Nat) :
    Option T × TrefleCache T :=
  match mapLookup c.cache key with
  | none => (none, c)
  | some entry =>
    if c.ttlMs < now - entry.timestamp then
      (none, { c with cache := mapDelete c.cache key })
    else
      (some entry.data, c)

/-- The ascending-timestamp comparator `(a, b) => a[1].timestamp -
b[1].timestamp` of `evictOldest`. -/
def tsLe (a b : String × CacheEntry T) : Bool :=
  a.2.timestamp ≤ b.2.timestamp

/-- Model of `evictOldest()` (cache.ts lines 412-420): delete the
`max(1, floor(maxSize * 0.1))` oldest entries by insertion timestamp.
`Math.floor(maxSize * 0.1) = maxSize / 10` (floor division) for every
realistic capacity, in particular for all configured ones (200, 300, 500). -/
def TrefleCache.evictOldest (c : TrefleCache T) : TrefleCache T :=
  let entriesToRemove := max 1 (c.maxSize / 10)
  let oldestKeys := ((stableSortBy tsLe c.cache).take entriesToRemove).map (·.1)
  { c with cache := oldestKeys.foldl (fun m k => mapDelete m k) c.cache }

/-- Model of `set(key, data)` (cache.ts lines 377-382): evict first when at (or
above) capacity, then insert with the current instant. -/
def TrefleCache.set (c : TrefleCache T) (key : String) (data : T) (now : Nat) :
    TrefleCache T :=
  let c1 := if c.maxSize ≤ c.cache.length then c.evictOldest else c
  { c1 with cache := mapSet c1.cache key ⟨data, now⟩ }

/-- Cache size (`get size()`, number of stored keys). -/
def TrefleCache.size (c : TrefleCache T) : Nat :=
  c.cache.length

/-- Model of `normalizeSearchKey` (cache.ts lines 543-545):
`query.toLowerCase().trim().replace(/\s+/g, " ")`. -/
def normalizeSearchKey (query : String) : String :=
  ⟨collapseWsRuns (jsTrimList (jsToLower query).data)⟩

/-! ## Rate limiter (client.ts lines 36-54) -/

/-- Model of `windowMs` of the sliding window. -/
def windowMs : Int := 60000

/-- Model of `maxRequests` ceiling of the sliding window. -/
def maxRequests : Nat := 100

/-- Model of `RateLimiter`: the recorded request instants.  Timestamps are `Int` so
that the cutoff `Date.now() - windowMs` behaves as in JS even when it is
negative. -/
structure RateLimiter where
  requestTimes : List Int
deriving DecidableEq, Repr

/-- A fresh limiter. -/
def emptyRateLimiter : RateLimiter := { requestTimes := [] }

/-- Model of `cleanup()` (client.ts lines 50-53): drop every timestamp not strictly
newer than the cutoff. -/
def RateLimiter.cleanup (rl : RateLimiter) (now : Int) : RateLimiter :=
  { requestTimes := rl.requestTimes.filter (fun time => now - windowMs < time) }

/-- Model of `canMakeRequest()` (client.ts lines 41-44), returning the mutated
limiter alongside the answer. -/
def RateLimiter.canMakeRequest (rl : RateLimiter) (now : Int) : Bool × RateLimiter :=
  let rl2 := rl.cleanup now
  (rl2.requestTimes.length < maxRequests, rl2)

/-- Model of `recordRequest()` (client.ts lines 46-48). -/
def RateLimiter.recordRequest (rl : RateLimiter) (now : Int) : RateLimiter :=
  { requestTimes := rl.requestTimes ++ [now] }

/-! ## The retrying request helper (client.ts lines 72-144)

An HTTP attempt either yields a parsed payload (`response.ok`), a response
with a non-2xx status, or a network/timeout failure (a rejected `fetch`,
including the abort fired by the request timeout).  The outcome of the
`attempt`-th underlying call is supplied by an explicit oracle. -/

/-- Outcome of one underlying `fetch`. -/
inductive Outcome (α : Type u) where
  /-- Model of `response.ok` with parsed body -/
  | ok (data : α)
  /-- a response with `response.ok = false` and this status code -/
  | httpError (status : Nat)
  /-- network error or timeout (rejected `fetch` / abort) -/
  | netErr
deriving Repr

/-- The error kinds `request` can surface: the three classified error
classes (`TrefleNotFoundError`, `TrefleAuthError`, `TrefleRateLimitError`,
client.ts lines 356-375), the retryable `Server error` and generic
`API error` wrappers, network errors, the local rate-limit rejection
(line 74), and the unreachable `Request failed after retries` fallback of
line 139. -/
inductive TrefleErrorKind where
  | notFoundError
  | authError
  | rateLimitError
  | serverError (status : Nat)
  | apiError (status : Nat)
  | networkError
  | localRateLimit
  | exhausted
deriving DecidableEq, Repr

/-- How one attempt's outcome is classified by the body of the retry loop
(client.ts lines 97-136). -/
inductive AttemptOutcome (α : Type u) where
  /-- Model of `return data` -/
  | success (d : α)
  /-- one of the three classified errors: thrown, re-thrown by the `catch`
  (line 132), so the loop aborts -/
  | fatal (e : TrefleErrorKind)
  /-- every other failure ends up in `lastError` and the loop continues:
  the 5xx branch assigns it directly (lines 124-127), and any other thrown
  error — including the `API error` throw of line 129 — is caught by the
  `catch` of line 130, which re-throws only the three classified errors and
  stores the rest in `lastError` (line 135) -/
  | retryable (e : TrefleErrorKind)

/-- Classification of one attempt, mirroring the source's test order
(`response.ok`, 404, 401, 429, `>= 500`, other status, thrown/network). -/
def classifyAttempt : Outcome α → AttemptOutcome α
  | .ok d => .success d
  | .httpError s =>
    if s = 404 then .fatal .notFoundError
    else if s = 401 then .fatal .authError
    else if s = 429 then .fatal .rateLimitError
    else if 500 ≤ s then .retryable (.serverError s)
    else .retryable (.apiError s)
  | .netErr => .retryable .networkError

/-- Model of `MAX_RETRIES` (client.ts line 25). -/
def MAX_RETRIES : Nat := 2

/-- Model of `RETRY_DELAY_MS` (client.ts line 26). -/
def RETRY_DELAY_MS : Nat := 1000

/-- What a `request` run produced: the result, the number of underlying
calls (`recordRequest` count), the delays awaited before retries, and the
final limiter state. -/
structure RequestTrace (α : Type u) where
  result : Except TrefleErrorKind α
  calls : Nat
  delays : List Nat
  limiter : RateLimiter

/-- The retry loop `for (attempt = 0; attempt <= MAX_RETRIES; attempt++)`
(client.ts lines 86-137), with `fuel = MAX_RETRIES + 1 - attempt` making the
loop bound structural.  Before attempt `> 0` the client awaits
`RETRY_DELAY_MS * attempt`; each attempt records its instant on the
limiter (network time itself is not modelled — only the retry delays
advance the clock). -/
def requestAttempts (outcomes : Nat → Outcome α) :
    RateLimiter → Int → Nat → Nat → Option TrefleErrorKind → RequestTrace α
  | rl, _, _, 0, lastError =>
    { result := .error (lastError.getD .exhausted), calls := 0, delays := [], limiter := rl }
  | rl, now, attempt, fuel + 1, _lastError =>
    let wait := RETRY_DELAY_MS * attempt
    let t := now + wait
    let rl2 := rl.recordRequest t
    let ds : List Nat := if attempt = 0 then [] else [wait]
    match classifyAttempt (outcomes attempt) with
    | .success d => { result := .ok d, calls := 1, delays := ds, limiter := rl2 }
    | .fatal e => { result := .error e, calls := 1, delays := ds, limiter := rl2 }
    | .retryable e =>
      let rest := requestAttempts outcomes rl2 t (attempt + 1) fuel (some e)
      { result := rest.result, calls := rest.calls + 1,
        delays := ds ++ rest.delays, limiter := rest.limiter }

/-- Model of `request(endpoint, params)` (client.ts lines 72-140): the rate-limiter
gate (lines 73-75) followed by the retry loop.  URL construction carries no
behaviour relevant to the claims and is not modelled; the oracle stands for
the responses of the resulting endpoint. -/
def request (outcomes : Nat → Outcome α) (rl : RateLimiter) (now : Int) :
    RequestTrace α :=
  let gate := rl.canMakeRequest now
  if gate.1 then requestAttempts outcomes gate.2 now 0 (MAX_RETRIES + 1) none
  else { result := .error .localRateLimit, calls := 0, delays := [], limiter := gate.2 }

/-- Model of `searchPlants(query, limit)` (client.ts lines 147-160): check the search
cache under the normalized query; on a miss perform the remote request and
cache `response.data.slice(0, limit)`.  Returns the result, the updated
cache, the calls made and the final limiter. -/
def searchPlants (cache : TrefleCache (List T)) (query : String) (limit : Nat)
    (now : Nat) (outcomes : Nat → Outcome (List T)) (rl : RateLimiter) :
    Except TrefleErrorKind (List T) × TrefleCache (List T) × Nat × RateLimiter :=
  let nq := normalizeSearchKey query
  match cache.get nq now with
  | (some cached, c2) => (.ok cached, c2, 0, rl)
  | (none, c2) =>
    let tr := request outcomes rl (now : Int)
    match tr.result with
    | .error e => (.error e, c2, tr.calls, tr.limiter)
    | .ok data =>
      let results := data.take limit
      (.ok results, c2.set nq results now, tr.calls, tr.limiter)

/-! ## Spec-side predicate for the mention-name invariant

The specification states the invariant "`normalizedName` for a mention is
always lowercase, trimmed, internal whitespace collapsed to single
spaces"; this predicate is that wording, for comparison against the
behaviour of `extractPlantMentions`. -/

/-- Spec wording: the string is its own lowercasing, its own trimming, and
its own whitespace-collapse. -/
def specCanonicalName (s : String) : Prop :=
  jsToLower s = s ∧ jsTrim s = s ∧ (⟨collapseWsRuns s.data⟩ : String) = s

instance (s : String) : Decidable (specCanonicalName s) := by
  unfold specCanonicalName
  infer_instance

/-! ## Character-level lemmas -/

theorem toNat_ofNat_valid {n : Nat} (h : n < 55296) : (Char.ofNat n).toNat = n := by
  have hv : Nat.isValidChar n := Or.inl h
  unfold Char.ofNat
  rw [dif_pos hv]
  simp [Char.ofNatAux, Char.toNat, UInt32.toNat, BitVec.ofNatLt]

theorem le_char_iff {a b : Char} : a ≤ b ↔ a.toNat ≤ b.toNat := by
  rw [Char.le_def]
  exact Iff.rfl

theorem lowerChar_idem (c : Char) : lowerChar (lowerChar c) = lowerChar c := by
  unfold lowerChar
  by_cases h : 'A' ≤ c ∧ c ≤ 'Z'
  · rw [if_pos h]
    have h1 : 65 ≤ c.toNat := by
      have := h.1; rw [le_char_iff] at this; simpa using this
    have h2 : c.toNat ≤ 90 := by
      have := h.2; rw [le_char_iff] at this; simpa using this
    have hval : (Char.ofNat (c.toNat + 32)).toNat = c.toNat + 32 :=
      toNat_ofNat_valid (by omega)
    rw [if_neg]
    rintro ⟨ha, hz⟩
    rw [le_char_iff] at ha hz
    rw [hval] at ha hz
    have hA : ('A' : Char).toNat = 65 := by decide
    have hZ : ('Z' : Char).toNat = 90 := by decide
    omega
  · rw [if_neg h, if_neg h]

theorem jsToLower_idem (s : String) : jsToLower (jsToLower s) = jsToLower s := by
  unfold jsToLower
  congr 1
  rw [List.map_map]
  exact List.map_congr_left fun c _ => lowerChar_idem c

/-! ## Further association-list lemmas -/

theorem mapLookup_eq_none_iff (m : List (String × β)) (k : String) :
    mapLookup m k = none ↔ k ∉ m.map (·.1) := by
  induction m with
  | nil => simp [mapLookup]
  | cons q m ih =>
    by_cases hq : q.1 = k
    · simp [mapLookup, hq]
    · have hstep : mapLookup (q :: m) k = mapLookup m k := by simp [mapLookup, hq]
      rw [hstep]
      simp only [List.map_cons, List.mem_cons]
      rw [ih]
      constructor
      · rintro hm (h1 | h2)
        · exact hq h1.symm
        · exact hm h2
      · exact fun hm h2 => hm (Or.inr h2)

theorem keys_mapSet_of_lookup_some (m : List (String × β)) (k : String) (v : β)
    (h : (mapLookup m k).isSome) : (mapSet m k v).map (·.1) = m.map (·.1) := by
  induction m with
  | nil => simp [mapLookup] at h
  | cons q m ih =>
    by_cases hq : q.1 = k
    · simp [mapSet, hq]
    · rw [mapLookup, if_neg hq] at h
      simp [mapSet, hq, ih h]

theorem keys_mapSet_of_lookup_none (m : List (String × β)) (k : String) (v : β)
    (h : mapLookup m k = none) : (mapSet m k v).map (·.1) = m.map (·.1) ++ [k] := by
  induction m with
  | nil => simp [mapSet]
  | cons q m ih =>
    by_cases hq : q.1 = k
    · rw [mapLookup, if_pos hq] at h
      cases h
    · rw [mapLookup, if_neg hq] at h
      simp [mapSet, hq, ih h]

theorem keys_mapDelete (m : List (String × β)) (k : String) :
    (mapDelete m k).map (·.1) = (m.map (·.1)).filter (fun x => ¬ (x = k)) := by
  induction m with
  | nil => simp [mapDelete]
  | cons q m ih =>
    by_cases hq : q.1 = k
    · simp [mapDelete, hq, ih]
    · simp [mapDelete, hq, ih]

theorem length_mapSet_of_lookup_some (m : List (String × β)) (k : String) (v : β)
    (h : (mapLookup m k).isSome) : (mapSet m k v).length = m.length := by
  have h1 : ((mapSet m k v).map (·.1)).length = (m.map (·.1)).length := by
    rw [keys_mapSet_of_lookup_some m k v h]
  simpa using h1

theorem length_mapSet_of_lookup_none (m : List (String × β)) (k : String) (v : β)
    (h : mapLookup m k = none) : (mapSet m k v).length = m.length + 1 := by
  have h1 : ((mapSet m k v).map (·.1)).length = (m.map (·.1) ++ [k]).length := by
    rw [keys_mapSet_of_lookup_none m k v h]
  simpa using h1

theorem nodup_filter_head_ne {a : String} {l : List String} (h : (a :: l).Nodup) :
    (a :: l).filter (fun x => ¬ (x = a)) = l := by
  rw [List.nodup_cons] at h
  rw [List.filter_cons_of_neg (by simp)]
  exact List.filter_eq_self.mpr fun b hb => by
    have hba : ¬ (b = a) := fun e => h.1 (e ▸ hb)
    simpa using hba

/-! ## Registry well-formedness and the capacity/FIFO development -/

/-- Well-formedness of a registry state: the profile-map keys are a
permutation of the FIFO order, the order has no duplicates, and the state is
within capacity.  It holds for the initial (empty) singleton and, as proved
below, is preserved by `addPlant`. -/
def RegistryWF (reg : ConversationPlantRegistry) : Prop :=
  (reg.plants.map (·.1)) ~ reg.mentionOrder ∧ reg.mentionOrder.Nodup ∧
    reg.mentionOrder.length ≤ maxPlants

instance (reg : ConversationPlantRegistry) : Decidable (RegistryWF reg) := by
  unfold RegistryWF
  exact instDecidableAnd

/-- Model of `addPlant` on a key already present only updates the profile map. -/
theorem addPlant_eq_update (reg : ConversationPlantRegistry) (k : String)
    (p : ProcessedPlantData)
    (h : (mapLookup reg.plants (jsTrim (jsToLower k))).isSome) :
    reg.addPlant k p =
      { reg with plants := mapSet reg.plants (jsTrim (jsToLower k)) p } := by
  unfold ConversationPlantRegistry.addPlant
  simp [h]

/-- Model of `addPlant` on a new key below capacity appends the key. -/
theorem addPlant_eq_append (reg : ConversationPlantRegistry) (k : String)
    (p : ProcessedPlantData)
    (h : mapLookup reg.plants (jsTrim (jsToLower k)) = none)
    (hcap : reg.mentionOrder.length < maxPlants) :
    reg.addPlant k p =
      { plants := mapSet reg.plants (jsTrim (jsToLower k)) p,
        mentionOrder := reg.mentionOrder ++ [jsTrim (jsToLower k)] } := by
  unfold ConversationPlantRegistry.addPlant
  simp [h, Nat.not_le.mpr hcap]

/-- Model of `addPlant` on a new key at capacity with a truthy (non-empty)
oldest key: it evicts exactly that single oldest key. -/
theorem addPlant_eq_evict (reg : ConversationPlantRegistry) (k : String)
    (p : ProcessedPlantData) (oldest : String) (rest : List String)
    (h : mapLookup reg.plants (jsTrim (jsToLower k)) = none)
    (horder : reg.mentionOrder = oldest :: rest)
    (hcap : maxPlants ≤ reg.mentionOrder.length)
    (hne : oldest ≠ "") :
    reg.addPlant k p =
      { plants := mapSet (mapDelete reg.plants oldest) (jsTrim (jsToLower k)) p,
        mentionOrder := rest ++ [jsTrim (jsToLower k)] } := by
  unfold ConversationPlantRegistry.addPlant
  rw [horder] at hcap
  have hcap2 : maxPlants ≤ rest.length + 1 := by simpa using hcap
  simp [h, horder, hcap2, hne]

/-- Strengthened well-formedness: additionally no registered key is the
empty string.  The `if (oldestKey)` truthiness guard skips the eviction
delete when the shifted key is `""` (which `addPlant(" ", …)` can register,
since `key.toLowerCase().trim()` maps a whitespace-only key to the empty
string), so the plain capacity invariant needs this extra clause. -/
def RegistryWFNE (reg : ConversationPlantRegistry) : Prop :=
  RegistryWF reg ∧ "" ∉ reg.mentionOrder

instance (reg : ConversationPlantRegistry) : Decidable (RegistryWFNE reg) := by
  unfold RegistryWFNE
  exact instDecidableAnd

/-- Model of `addPlant` preserves strengthened well-formedness whenever the
inserted key does not normalize to the empty string. -/
theorem addPlant_WF (reg : ConversationPlantRegistry) (k : String)
    (p : ProcessedPlantData) (hwfne : RegistryWFNE reg)
    (hkne : jsTrim (jsToLower k) ≠ "") :
    RegistryWFNE (reg.addPlant k p) := by
  obtain ⟨⟨hperm, hnodup, hlen⟩, hnoempty⟩ := hwfne
  set nk := jsTrim (jsToLower k) with hnk
  by_cases hlook : (mapLookup reg.plants nk).isSome
  · rw [addPlant_eq_update reg k p hlook]
    refine ⟨⟨?_, hnodup, hlen⟩, hnoempty⟩
    rw [keys_mapSet_of_lookup_some _ _ _ hlook]
    exact hperm
  · have hnone : mapLookup reg.plants nk = none := by
      cases hcase : mapLookup reg.plants nk with
      | none => rfl
      | some v => rw [hcase] at hlook; simp at hlook
    have hnotmem : nk ∉ reg.mentionOrder :=
      fun hmem => ((mapLookup_eq_none_iff _ _).mp hnone) (hperm.mem_iff.mpr hmem)
    by_cases hcap : maxPlants ≤ reg.mentionOrder.length
    · have hlen20 : reg.mentionOrder.length = maxPlants := Nat.le_antisymm hlen hcap
      cases horder : reg.mentionOrder with
      | nil => rw [horder] at hlen20; simp [maxPlants] at hlen20
      | cons oldest rest =>
        have holdne : oldest ≠ "" := by
          intro he
          exact hnoempty (horder ▸ (he ▸ List.mem_cons_self oldest rest))
        rw [addPlant_eq_evict reg k p oldest rest hnone horder hcap holdne]
        rw [horder] at hperm hnodup hlen20 hnotmem hnoempty
        have hkeys1 : (mapDelete reg.plants oldest).map (·.1) ~ rest := by
          rw [keys_mapDelete]
          calc (reg.plants.map (·.1)).filter (fun x => ¬ (x = oldest))
              ~ (oldest :: rest).filter (fun x => ¬ (x = oldest)) := hperm.filter _
            _ = rest := nodup_filter_head_ne hnodup
        have hnk1 : mapLookup (mapDelete reg.plants oldest) nk = none := by
          rw [mapLookup_eq_none_iff]
          intro hmem
          exact hnotmem (List.mem_cons_of_mem oldest (hkeys1.mem_iff.mp hmem))
        have hnkrest : nk ∉ rest := fun hr => hnotmem (List.mem_cons_of_mem oldest hr)
        refine ⟨⟨?_, ?_, ?_⟩, ?_⟩
        · show (mapSet (mapDelete reg.plants oldest) nk p).map (·.1) ~ rest ++ [nk]
          rw [keys_mapSet_of_lookup_none _ _ _ hnk1]
          exact hkeys1.append (List.Perm.refl [nk])
        · show (rest ++ [nk]).Nodup
          rw [List.nodup_append]
          exact ⟨(List.nodup_cons.mp hnodup).2, List.nodup_singleton nk,
            fun a ha => by
              simp only [List.mem_singleton]
              intro hank
              exact hnkrest (hank ▸ ha)⟩
        · show (rest ++ [nk]).length ≤ maxPlants
          have hr1 : rest.length + 1 = maxPlants := by simpa using hlen20
          simpa using Nat.le_of_eq hr1
        · show "" ∉ rest ++ [nk]
          rw [List.mem_append]
          rintro (hr | hs)
          · exact hnoempty (List.mem_cons_of_mem oldest hr)
          · exact hkne (List.mem_singleton.mp hs).symm
    · have hlt : reg.mentionOrder.length < maxPlants := Nat.lt_of_not_le hcap
      rw [addPlant_eq_append reg k p hnone hlt]
      refine ⟨⟨?_, ?_, ?_⟩, ?_⟩
      · show (mapSet reg.plants nk p).map (·.1) ~ reg.mentionOrder ++ [nk]
        rw [keys_mapSet_of_lookup_none _ _ _ hnone]
        exact hperm.append (List.Perm.refl [nk])
      · show (reg.mentionOrder ++ [nk]).Nodup
        rw [List.nodup_append]
        exact ⟨hnodup, List.nodup_singleton nk,
          fun a ha => by
            simp only [List.mem_singleton]
            intro hank
            exact hnotmem (hank ▸ ha)⟩
      · show (reg.mentionOrder ++ [nk]).length ≤ maxPlants
        simpa using hlt
      · show "" ∉ reg.mentionOrder ++ [nk]
        rw [List.mem_append]
        rintro (hr | hs)
        · exact hnoempty hr
        · exact hkne (List.mem_singleton.mp hs).symm

/-- Size of a well-formed registry equals the length of its FIFO order. -/
theorem size_eq_order_length (reg : ConversationPlantRegistry)
    (h : RegistryWF reg) : reg.size = reg.mentionOrder.length := by
  have := h.1.length_eq
  simpa [ConversationPlantRegistry.size] using this

/-- Fold `addPlant` over a list of insertions. -/
def applyAddPlants (reg : ConversationPlantRegistry) :
    List (String × ProcessedPlantData) → ConversationPlantRegistry
  | [] => reg
  | (k, p) :: ops => applyAddPlants (reg.addPlant k p) ops

theorem applyAddPlants_WF (reg : ConversationPlantRegistry)
    (ops : List (String × ProcessedPlantData)) (h : RegistryWFNE reg)
    (hops : ∀ op ∈ ops, jsTrim (jsToLower op.1) ≠ "") :
    RegistryWFNE (applyAddPlants reg ops) := by
  induction ops generalizing reg with
  | nil => exact h
  | cons op ops ih =>
    obtain ⟨k, p⟩ := op
    exact ih _ (addPlant_WF _ _ _ h (hops (k, p) (List.mem_cons_self _ _)))
      (fun op2 hop2 => hops op2 (List.mem_cons_of_mem _ hop2))

theorem applyAddPlants_size (reg : ConversationPlantRegistry)
    (ops : List (String × ProcessedPlantData)) (h : RegistryWFNE reg)
    (hops : ∀ op ∈ ops, jsTrim (jsToLower op.1) ≠ "") :
    (applyAddPlants reg ops).size ≤ maxPlants := by
  have hwf := applyAddPlants_WF reg ops h hops
  rw [size_eq_order_length _ hwf.1]
  exact hwf.1.2.2

/-- A sample profile used by concrete witness states. -/
def sampleProfile : ProcessedPlantData :=
  { id := 266004, slug := "monstera-deliciosa", scientificName := "Monstera deliciosa",
    commonName := some "Monstera", genus := "Monstera" }

/-- Twenty distinct keys, used to build a registry at capacity. -/
def witnessKeys : List String :=
  ["a", "b", "c", "d", "e", "f", "g", "h", "i2", "j",
   "k", "l", "m", "n", "o", "p", "q", "r", "s", "t"]

/-- Twenty insertions filling the registry to capacity. -/
def witnessOps : List (String × ProcessedPlantData) :=
  witnessKeys.map (fun k => (k, sampleProfile))

/-- Nineteen distinct insertions, preceded by a whitespace-only key that
normalizes to the empty string: a registry at capacity whose oldest key is
`""`. -/
def overflowOps : List (String × ProcessedPlantData) :=
  (" ", sampleProfile) :: witnessKeys.tail.map (fun k => (k, sampleProfile))

/-- Counterexample to C6 as stated: a whitespace-only key (reachable — a
whitespace-only common name is truthy, so `getSpeciesById` passes it to
`addPlant`, and `key.toLowerCase().trim()` maps it to `""`) registers the
empty string.  Once `""` is the oldest of 20 registered keys, inserting a
21st distinct key shifts `""` off the mention order, but the
`if (oldestKey)` truthiness guard (cache.ts lines 470-473) skips
`plants.delete`, so the profile map keeps the `""` entry and grows to 21
keys: the registry holds more than 20 keys, and the oldest key's profile is
not evicted. -/
theorem C6_counterexample :
    (applyAddPlants emptyRegistry overflowOps).size = maxPlants ∧
    ((applyAddPlants emptyRegistry overflowOps).addPlant "u" sampleProfile).size = 21 ∧
    mapLookup ((applyAddPlants emptyRegistry overflowOps).addPlant
        "u" sampleProfile).plants "" = some sampleProfile ∧
    "" ∉ ((applyAddPlants emptyRegistry overflowOps).addPlant
        "u" sampleProfile).mentionOrder := by
  exact ⟨by decide, by decide, by decide, by decide⟩

/-- C6 (amended): provided no registered or inserted key normalizes
(lowercase + trim) to the empty string, the conversation registry never
holds more than 20 keys after any sequence of insertions, and inserting a
new distinct key while 20 keys are registered evicts exactly the single
oldest-inserted key (FIFO), leaving all other keys and their profiles
unchanged; when the oldest key is the empty string the eviction delete is
skipped and the key count can reach 21. -/
theorem C6_registry_capacity_and_fifo :
    (∀ (reg : ConversationPlantRegistry) (ops : List (String × ProcessedPlantData)),
       RegistryWFNE reg → (∀ op ∈ ops, jsTrim (jsToLower op.1) ≠ "") →
       (applyAddPlants reg ops).size ≤ maxPlants) ∧
    (∀ (reg : ConversationPlantRegistry) (k : String) (p : ProcessedPlantData)
       (oldest : String) (rest : List String),
       RegistryWFNE reg →
       reg.mentionOrder = oldest :: rest →
       mapLookup reg.plants (jsTrim (jsToLower k)) = none →
       maxPlants ≤ reg.mentionOrder.length →
       (reg.addPlant k p).mentionOrder = rest ++ [jsTrim (jsToLower k)] ∧
       mapLookup (reg.addPlant k p).plants oldest = none ∧
       mapLookup (reg.addPlant k p).plants (jsTrim (jsToLower k)) = some p ∧
       (∀ k2, k2 ≠ oldest → k2 ≠ jsTrim (jsToLower k) →
         mapLookup (reg.addPlant k p).plants k2 = mapLookup reg.plants k2) ∧
       (reg.addPlant k p).size = reg.size) := by
  constructor
  · exact fun reg ops h hops => applyAddPlants_size reg ops h hops
  · intro reg k p oldest rest hwfne horder hnone hcap
    obtain ⟨⟨hperm, hnodup, hlen⟩, hnoempty⟩ := hwfne
    set nk := jsTrim (jsToLower k) with hnk
    have hnotmem : nk ∉ reg.mentionOrder :=
      fun hmem => ((mapLookup_eq_none_iff _ _).mp hnone) (hperm.mem_iff.mpr hmem)
    have holdne : oldest ≠ nk := by
      intro he
      exact hnotmem (horder ▸ (he ▸ List.mem_cons_self oldest rest))
    have holdempty : oldest ≠ "" := by
      intro he
      exact hnoempty (horder ▸ (he ▸ List.mem_cons_self oldest rest))
    have heq := addPlant_eq_evict reg k p oldest rest hnone horder hcap holdempty
    rw [horder] at hperm hnodup hnotmem
    have hkeys1 : (mapDelete reg.plants oldest).map (·.1) ~ rest := by
      rw [keys_mapDelete]
      calc (reg.plants.map (·.1)).filter (fun x => ¬ (x = oldest))
          ~ (oldest :: rest).filter (fun x => ¬ (x = oldest)) := hperm.filter _
        _ = rest := nodup_filter_head_ne hnodup
    have hnk1 : mapLookup (mapDelete reg.plants oldest) nk = none := by
      rw [mapLookup_eq_none_iff]
      intro hmem
      exact hnotmem (List.mem_cons_of_mem oldest (hkeys1.mem_iff.mp hmem))
    refine ⟨by rw [heq], ?_, ?_, ?_, ?_⟩
    · rw [heq]
      show mapLookup (mapSet (mapDelete reg.plants oldest) nk p) oldest = none
      rw [mapLookup_mapSet_ne _ _ _ _ holdne]
      exact mapLookup_mapDelete_self _ _
    · rw [heq]
      exact mapLookup_mapSet_self _ _ _
    · intro k2 h2old h2nk
      rw [heq]
      show mapLookup (mapSet (mapDelete reg.plants oldest) nk p) k2 = _
      rw [mapLookup_mapSet_ne _ _ _ _ h2nk, mapLookup_mapDelete_ne _ _ _ h2old]
    · rw [heq]
      show (mapSet (mapDelete reg.plants oldest) nk p).length = reg.plants.length
      rw [length_mapSet_of_lookup_none _ _ _ hnk1]
      have hd : (mapDelete reg.plants oldest).length = rest.length := by
        have := hkeys1.length_eq
        simpa using this
      have hp : reg.plants.length = rest.length + 1 := by
        have := hperm.length_eq
        simpa using this
      omega

/-- Witness for `C6_registry_capacity_and_fifo`: a concrete registry filled
with 20 non-empty keys, then a 21st distinct key. -/
theorem C6_registry_capacity_and_fifo_witness :
    (applyAddPlants emptyRegistry witnessOps).size ≤ maxPlants ∧
    ((applyAddPlants emptyRegistry witnessOps).addPlant "u" sampleProfile).mentionOrder
      = witnessKeys.tail ++ ["u"] ∧
    mapLookup ((applyAddPlants emptyRegistry witnessOps).addPlant "u" sampleProfile).plants
      "a" = none := by
  refine ⟨C6_registry_capacity_and_fifo.1 emptyRegistry witnessOps (by decide) (by decide),
    ?_, ?_⟩
  · have h := C6_registry_capacity_and_fifo.2 (applyAddPlants emptyRegistry witnessOps)
      "u" sampleProfile "a" witnessKeys.tail (by decide) (by decide) (by decide) (by decide)
    have := h.1
    simpa using this
  · have h := C6_registry_capacity_and_fifo.2 (applyAddPlants emptyRegistry witnessOps)
      "u" sampleProfile "a" witnessKeys.tail (by decide) (by decide) (by decide) (by decide)
    have := h.2.1
    simpa using this

theorem filterMap_all_some {f : α → Option β} {l : List α}
    (h : ∀ x ∈ l, (f x).isSome) :
    (l.filterMap f).length = l.length ∧
    ∀ i : Nat, (l.filterMap f)[i]? = (l[i]?).bind f := by
  induction l with
  | nil => exact ⟨by simp, by simp⟩
  | cons x xs ih =>
    have hx := h x (List.mem_cons_self x xs)
    obtain ⟨v, hv⟩ := Option.isSome_iff_exists.mp hx
    have ih2 := ih (fun y hy => h y (List.mem_cons_of_mem _ hy))
    rw [List.filterMap_cons, hv]
    constructor
    · simpa using ih2.1
    · intro i
      cases i with
      | zero => simp [hv]
      | succ j => simpa using ih2.2 j

/-- Characterization of `getRecentPlants` on a well-formed registry for
`n ≥ 1`: it returns `min n size` profiles, and its `i`-th element is the
profile of the `i`-th most recently inserted key. -/
theorem getRecentPlants_spec (reg : ConversationPlantRegistry)
    (h : RegistryWF reg) (n : Nat) (hn : 1 ≤ n) :
    (reg.getRecentPlants n).length = min n reg.mentionOrder.length ∧
    ∀ i : Nat, i < (reg.getRecentPlants n).length →
      (reg.getRecentPlants n)[i]? = (reg.mentionOrder.reverse[i]?).bind (mapLookup reg.plants) := by
  obtain ⟨hperm, hnodup, hlen⟩ := h
  have hn0 : ¬ (n = 0) := by omega
  set ord := reg.mentionOrder with hord
  set len := ord.length with hlenord
  set rk := ord.drop (len - n) with hrk
  have hkeys : reg.getRecentPlants n = (rk.filterMap (mapLookup reg.plants)).reverse := by
    unfold ConversationPlantRegistry.getRecentPlants
    rw [if_neg hn0]
    simp only [List.filterMap_map]
    rfl
  have hallsome : ∀ x ∈ rk, (mapLookup reg.plants x).isSome := by
    intro x hx
    have hmemord : x ∈ ord := List.drop_subset _ _ hx
    have hmemkeys : x ∈ reg.plants.map (·.1) := hperm.mem_iff.mpr hmemord
    cases hcase : mapLookup reg.plants x with
    | none => exact absurd hmemkeys ((mapLookup_eq_none_iff _ _).mp hcase)
    | some v => simp
  have hfm := filterMap_all_some hallsome
  have hrklen : rk.length = min n len := by
    rw [hrk, List.length_drop]
    omega
  have hreslen : (reg.getRecentPlants n).length = min n len := by
    rw [hkeys, List.length_reverse, hfm.1, hrklen]
  refine ⟨hreslen, ?_⟩
  intro i hi
  rw [hreslen] at hi
  have hilen : i < len := lt_of_lt_of_le hi (Nat.min_le_right n len)
  have hifm : i < (rk.filterMap (mapLookup reg.plants)).length := by
    rw [hfm.1, hrklen]; exact hi
  rw [hkeys, List.getElem?_reverse hifm, hfm.1, hrklen]
  rw [hfm.2, List.getElem?_drop]
  rw [List.getElem?_reverse hilen]
  congr 2
  omega

/-- Counterexample to C7 as stated: the same profile registered under two
keys (exactly what `getSpeciesById` does with a slug and a common name)
appears twice in `getRecentPlants`, and `getRecentPlants 0` returns every
profile rather than at most `0` of them (JS `slice(-0)` is `slice(0)`). -/
theorem C7_counterexample :
    (((emptyRegistry.addPlant "monstera-deliciosa" sampleProfile).addPlant
        "monstera" sampleProfile).getRecentPlants 2
      = [sampleProfile, sampleProfile] ∧
     ¬ (((emptyRegistry.addPlant "monstera-deliciosa" sampleProfile).addPlant
        "monstera" sampleProfile).getRecentPlants 2).Nodup) ∧
    (emptyRegistry.addPlant "monstera" sampleProfile).getRecentPlants 0
      = [sampleProfile] := by
  exact ⟨⟨by decide, by decide⟩, by decide⟩

/-- C7 (amended): for every `n ≥ 1`, `getRecentPlants n` returns the
profiles of up to `n` most-recently-inserted distinct keys, most recent
first (the same profile may appear under several keys); in particular after
inserting distinct keys A, B, C, D, `getRecentPlants 3` returns the profiles
of D, C, B in that order. -/
theorem C7_getRecentPlants_recent_first :
    (∀ (reg : ConversationPlantRegistry) (n : Nat), RegistryWF reg → 1 ≤ n →
      (reg.getRecentPlants n).length = min n reg.mentionOrder.length ∧
      ∀ i : Nat, i < (reg.getRecentPlants n).length →
        (reg.getRecentPlants n)[i]? =
          (reg.mentionOrder.reverse[i]?).bind (mapLookup reg.plants)) ∧
    (∀ pA pB pC pD : ProcessedPlantData,
      ((((emptyRegistry.addPlant "a" pA).addPlant "b" pB).addPlant "c" pC).addPlant
          "d" pD).getRecentPlants 3 = [pD, pC, pB]) := by
  constructor
  · exact fun reg n h hn => getRecentPlants_spec reg h n hn
  · intro pA pB pC pD
    rfl

/-- Witness for `C7_getRecentPlants_recent_first` at a concrete registry. -/
theorem C7_getRecentPlants_recent_first_witness :
    ((emptyRegistry.addPlant "monstera" sampleProfile).getRecentPlants 3).length
        = min 3 (emptyRegistry.addPlant "monstera" sampleProfile).mentionOrder.length ∧
    ((((emptyRegistry.addPlant "a" sampleProfile).addPlant "b" sampleProfile).addPlant
        "c" sampleProfile).addPlant "d" sampleProfile).getRecentPlants 3
      = [sampleProfile, sampleProfile, sampleProfile] := by
  exact ⟨(C7_getRecentPlants_recent_first.1 (emptyRegistry.addPlant "monstera" sampleProfile)
      3 (by decide) (by decide)).1,
    C7_getRecentPlants_recent_first.2 sampleProfile sampleProfile sampleProfile sampleProfile⟩

/-! ## Cache well-formedness and the TTL/capacity development -/

/-- Well-formedness of a cache state: no duplicate keys.  Holds for a fresh
cache and is preserved by `set` (a JS `Map` cannot hold a key twice). -/
def CacheWF (c : TrefleCache T) : Prop :=
  (c.cache.map (·.1)).Nodup

instance (c : TrefleCache T) : Decidable (CacheWF c) := by
  unfold CacheWF
  exact List.nodupDecidable _

theorem mapDelete_eq_filter (m : List (String × β)) (k : String) :
    mapDelete m k = m.filter (fun p => ¬ (p.1 = k)) := by
  induction m with
  | nil => rfl
  | cons q m ih =>
    by_cases hq : q.1 = k
    · simp [mapDelete, hq, ih]
    · simp [mapDelete, hq, ih]

theorem foldl_mapDelete_eq_filter (ks : List String) (m : List (String × β)) :
    ks.foldl (fun m k => mapDelete m k) m = m.filter (fun p => ¬ (p.1 ∈ ks)) := by
  induction ks generalizing m with
  | nil => simp
  | cons k ks ih =>
    show ks.foldl (fun m k => mapDelete m k) (mapDelete m k) = _
    rw [ih, mapDelete_eq_filter, List.filter_filter]
    apply List.filter_congr
    intro p _
    by_cases h1 : p.1 = k
    · simp [h1]
    · by_cases h2 : p.1 ∈ ks <;> simp [h1, h2]

/-- The entries surviving `evictOldest` are (a permutation of) the sorted
entry list with its first `max 1 (maxSize / 10)` entries dropped. -/
theorem evictOldest_perm_drop (c : TrefleCache T) (h : CacheWF c) :
    (c.evictOldest).cache ~ (stableSortBy tsLe c.cache).drop (max 1 (c.maxSize / 10)) := by
  unfold TrefleCache.evictOldest
  set srt := stableSortBy tsLe c.cache with hsrt
  set E := max 1 (c.maxSize / 10) with hE
  set oldestKeys := (srt.take E).map (·.1) with hok
  have hperm : c.cache ~ srt := (stableSortBy_perm tsLe c.cache).symm
  have hknodup : (srt.map (·.1)).Nodup := by
    have hmapperm : c.cache.map (·.1) ~ srt.map (·.1) := hperm.map _
    exact hmapperm.nodup_iff.mp h
  show oldestKeys.foldl (fun m k => mapDelete m k) c.cache ~ srt.drop E
  rw [foldl_mapDelete_eq_filter]
  have hsplit : srt = srt.take E ++ srt.drop E := (List.take_append_drop E srt).symm
  have hkeysplit : (srt.take E).map (·.1) ++ (srt.drop E).map (·.1) = srt.map (·.1) := by
    rw [← List.map_append, List.take_append_drop]
  have hdisj : ∀ x ∈ (srt.take E).map (·.1), x ∉ (srt.drop E).map (·.1) := by
    rw [← hkeysplit] at hknodup
    exact fun x hx h2 => (List.disjoint_of_nodup_append hknodup) hx h2
  calc c.cache.filter (fun p => ¬ (p.1 ∈ oldestKeys))
      ~ srt.filter (fun p => ¬ (p.1 ∈ oldestKeys)) := hperm.filter _
    _ = (srt.take E).filter (fun p => ¬ (p.1 ∈ oldestKeys)) ++
        (srt.drop E).filter (fun p => ¬ (p.1 ∈ oldestKeys)) := by
          rw [← List.filter_append, ← hsplit]
    _ = [] ++ (srt.drop E) := by
          congr 1
          · rw [List.filter_eq_nil_iff]
            intro p hp
            simp only [decide_not, Bool.not_eq_true', decide_eq_false_iff_not, not_not]
            exact List.mem_map_of_mem _ hp
          · apply List.filter_eq_self.mpr
            intro p hp
            have : p.1 ∉ oldestKeys := fun hmem => hdisj p.1 hmem (List.mem_map_of_mem _ hp)
            simpa using this
    _ = srt.drop E := by simp

/-- Model of `evictOldest` preserves well-formedness. -/
theorem evictOldest_WF (c : TrefleCache T) (h : CacheWF c) :
    CacheWF (c.evictOldest) := by
  unfold CacheWF
  have hsub : (c.evictOldest).cache.map (·.1) ~ ((stableSortBy tsLe c.cache).drop
      (max 1 (c.maxSize / 10))).map (·.1) := (evictOldest_perm_drop c h).map _
  rw [hsub.nodup_iff]
  have hknodup : ((stableSortBy tsLe c.cache).map (·.1)).Nodup := by
    have hmapperm : c.cache.map (·.1) ~ (stableSortBy tsLe c.cache).map (·.1) :=
      ((stableSortBy_perm tsLe c.cache).symm).map _
    exact hmapperm.nodup_iff.mp h
  have : ((stableSortBy tsLe c.cache).drop (max 1 (c.maxSize / 10))).map (·.1) <+
      (stableSortBy tsLe c.cache).map (·.1) := (List.drop_sublist _ _).map _
  exact this.nodup hknodup

theorem evictOldest_length (c : TrefleCache T) (h : CacheWF c) :
    (c.evictOldest).cache.length = c.cache.length - max 1 (c.maxSize / 10) := by
  have hp := (evictOldest_perm_drop c h).length_eq
  rw [hp, List.length_drop, (stableSortBy_perm tsLe c.cache).length_eq]

theorem mapSet_keys_nodup (m : List (String × β)) (k : String) (v : β)
    (h : (m.map (·.1)).Nodup) : ((mapSet m k v).map (·.1)).Nodup := by
  cases hcase : mapLookup m k with
  | none =>
    rw [keys_mapSet_of_lookup_none m k v hcase, List.nodup_append]
    exact ⟨h, List.nodup_singleton k,
      fun a ha => by
        simp only [List.mem_singleton]
        intro hak
        exact ((mapLookup_eq_none_iff m k).mp hcase) (hak ▸ ha)⟩
  | some v0 =>
    rw [keys_mapSet_of_lookup_some m k v (by rw [hcase]; rfl)]
    exact h

theorem length_mapSet_le (m : List (String × β)) (k : String) (v : β) :
    (mapSet m k v).length ≤ m.length + 1 := by
  cases hcase : mapLookup m k with
  | none => rw [length_mapSet_of_lookup_none m k v hcase]
  | some v0 =>
    rw [length_mapSet_of_lookup_some m k v (by rw [hcase]; rfl)]
    omega

/-- Model of `set` at (or above) capacity routes through `evictOldest` before
inserting. -/
theorem cacheSet_eq_at_capacity (c : TrefleCache T) (k : String) (v : T)
    (now : Nat) (hcap : c.maxSize ≤ c.cache.length) :
    c.set k v now = { c with cache := mapSet (c.evictOldest).cache k ⟨v, now⟩ } := by
  unfold TrefleCache.set
  rw [if_pos hcap]
  rfl

/-- Model of `set` below capacity inserts directly. -/
theorem cacheSet_eq_below (c : TrefleCache T) (k : String) (v : T)
    (now : Nat) (hcap : c.cache.length < c.maxSize) :
    c.set k v now = { c with cache := mapSet c.cache k ⟨v, now⟩ } := by
  unfold TrefleCache.set
  rw [if_neg (Nat.not_le.mpr hcap)]

/-- Model of `set` preserves well-formedness, the capacity bound, and the cache
configuration. -/
theorem cacheSet_preserves (c : TrefleCache T) (k : String) (v : T) (now : Nat)
    (h : CacheWF c) (hlen : c.cache.length ≤ c.maxSize) (hpos : 0 < c.maxSize) :
    CacheWF (c.set k v now) ∧ (c.set k v now).cache.length ≤ c.maxSize ∧
    (c.set k v now).maxSize = c.maxSize ∧ (c.set k v now).ttlMs = c.ttlMs := by
  by_cases hcap : c.maxSize ≤ c.cache.length
  · rw [cacheSet_eq_at_capacity c k v now hcap]
    have hwf1 := evictOldest_WF c h
    have hlen1 := evictOldest_length c h
    refine ⟨mapSet_keys_nodup _ _ _ hwf1, ?_, rfl, rfl⟩
    show (mapSet (c.evictOldest).cache k ⟨v, now⟩).length ≤ c.maxSize
    have hle := length_mapSet_le (c.evictOldest).cache k (⟨v, now⟩ : CacheEntry T)
    have hE : 1 ≤ max 1 (c.maxSize / 10) := le_max_left _ _
    omega
  · rw [cacheSet_eq_below c k v now (Nat.lt_of_not_le hcap)]
    have hlt : c.cache.length < c.maxSize := Nat.lt_of_not_le hcap
    refine ⟨mapSet_keys_nodup _ _ _ h, ?_, rfl, rfl⟩
    show (mapSet c.cache k ⟨v, now⟩).length ≤ c.maxSize
    have hle := length_mapSet_le c.cache k (⟨v, now⟩ : CacheEntry T)
    omega

/-- Fold `set` over a list of insertions. -/
def applyCacheSets (c : TrefleCache T) : List (String × T × Nat) → TrefleCache T
  | [] => c
  | (k, v, t) :: ops => applyCacheSets (c.set k v t) ops

theorem applyCacheSets_length (c : TrefleCache T) (ops : List (String × T × Nat))
    (h : CacheWF c) (hlen : c.cache.length ≤ c.maxSize) (hpos : 0 < c.maxSize) :
    (applyCacheSets c ops).cache.length ≤ c.maxSize := by
  induction ops generalizing c with
  | nil => exact hlen
  | cons op ops ih =>
    obtain ⟨k, v, t⟩ := op
    obtain ⟨h1, h2, h3, _⟩ := cacheSet_preserves c k v t h hlen hpos
    have := ih (c.set k v t) h1 (by rw [h3]; exact h2) (by rw [h3]; exact hpos)
    rw [h3] at this
    exact this

/-- C2: within the TTL, `set k v` followed by `get k` returns `v`; past the
TTL, the `get` reports absent and deletes the entry as a side effect of the
read.  Ages are wall-clock differences `t2 - t1` exactly as the source
computes them. -/
theorem C2_cache_ttl_get :
    ∀ (T : Type) (c : TrefleCache T) (k : String) (v : T) (t1 t2 : Nat),
      (t2 - t1 ≤ c.ttlMs → ((c.set k v t1).get k t2).1 = some v) ∧
      (c.ttlMs < t2 - t1 →
        ((c.set k v t1).get k t2).1 = none ∧
        mapLookup ((c.set k v t1).get k t2).2.cache k = none) := by
  intro T c k v t1 t2
  have hset : mapLookup (c.set k v t1).cache k = some ⟨v, t1⟩ := by
    by_cases hcap : c.maxSize ≤ c.cache.length
    · rw [cacheSet_eq_at_capacity c k v t1 hcap]
      exact mapLookup_mapSet_self _ _ _
    · rw [cacheSet_eq_below c k v t1 (Nat.lt_of_not_le hcap)]
      exact mapLookup_mapSet_self _ _ _
  have httl : (c.set k v t1).ttlMs = c.ttlMs := by
    by_cases hcap : c.maxSize ≤ c.cache.length
    · rw [cacheSet_eq_at_capacity c k v t1 hcap]
    · rw [cacheSet_eq_below c k v t1 (Nat.lt_of_not_le hcap)]
  constructor
  · intro hin
    unfold TrefleCache.get
    rw [hset]
    have hnot : ¬ ((c.set k v t1).ttlMs < t2 - t1) := by
      rw [httl]
      exact Nat.not_lt.mpr hin
    simp only [hnot, if_neg, not_false_iff]
  · intro hout
    unfold TrefleCache.get
    rw [hset]
    have hlt : (c.set k v t1).ttlMs < t2 - t1 := by
      rw [httl]
      exact hout
    simp only [hlt, if_pos]
    refine ⟨by trivial, mapLookup_mapDelete_self _ _⟩

/-- Witness for `C2_cache_ttl_get`: a 5-minute-TTL cache, a read 1 second
after insertion and a read just past the TTL. -/
theorem C2_cache_ttl_get_witness :
    (((TrefleCache.mk' 300000 500 : TrefleCache Nat).set "monstera" 7 0).get
        "monstera" 1000).1 = some 7 ∧
    ((((TrefleCache.mk' 300000 500 : TrefleCache Nat).set "monstera" 7 0).get
        "monstera" 300001).1 = none ∧
      mapLookup ((((TrefleCache.mk' 300000 500 : TrefleCache Nat).set "monstera" 7
        0).get "monstera" 300001)).2.cache "monstera" = none) :=
  ⟨(C2_cache_ttl_get Nat (TrefleCache.mk' 300000 500) "monstera" 7 0 1000).1 (by decide),
   (C2_cache_ttl_get Nat (TrefleCache.mk' 300000 500) "monstera" 7 0 300001).2 (by decide)⟩

/-- C3: after any sequence of `set` calls from a well-formed within-capacity
state the cache never exceeds its capacity; `evictOldest` removes exactly
`max 1 (floor(maxSize / 10))` entries, all of them no newer than any
surviving entry; and a `set` at or above capacity evicts before inserting. -/
theorem C3_cache_capacity_eviction :
    (∀ (T : Type) (c : TrefleCache T) (ops : List (String × T × Nat)),
       CacheWF c → c.cache.length ≤ c.maxSize → 0 < c.maxSize →
       (applyCacheSets c ops).size ≤ c.maxSize) ∧
    (∀ (T : Type) (c : TrefleCache T), CacheWF c →
       (c.evictOldest).size = c.cache.length - max 1 (c.maxSize / 10) ∧
       ∀ q ∈ c.cache, q.1 ∉ (c.evictOldest).cache.map (·.1) →
         ∀ p ∈ (c.evictOldest).cache, q.2.timestamp ≤ p.2.timestamp) ∧
    (∀ (T : Type) (c : TrefleCache T) (k : String) (v : T) (now : Nat),
       c.maxSize ≤ c.cache.length →
       c.set k v now = { c with cache := mapSet (c.evictOldest).cache k ⟨v, now⟩ }) := by
  refine ⟨?_, ?_, ?_⟩
  · intro T c ops h hlen hpos
    exact applyCacheSets_length c ops h hlen hpos
  · intro T c h
    have hperm := evictOldest_perm_drop c h
    refine ⟨evictOldest_length c h, ?_⟩
    intro q hq hqnot p hp
    set srt := stableSortBy tsLe c.cache with hsrt
    set E := max 1 (c.maxSize / 10) with hE
    have hsorted : srt.Pairwise (fun a b => tsLe a b) := by
      refine pairwise_stableSortBy tsLe ?_ ?_ c.cache
      · intro a b
        unfold tsLe
        rcases Nat.le_total a.2.timestamp b.2.timestamp with hab | hba
        · simp [hab]
        · simp [hba]
      · intro a b d hab hbd
        unfold tsLe at hab hbd ⊢
        simp only [decide_eq_true_eq] at hab hbd ⊢
        omega
    have hsplit : srt.take E ++ srt.drop E = srt := List.take_append_drop E srt
    have hpw := List.pairwise_append.mp (hsplit ▸ hsorted)
    have hpdrop : p ∈ srt.drop E := hperm.mem_iff.mp hp
    have hqsrt : q ∈ srt := (stableSortBy_perm tsLe c.cache).mem_iff.mpr hq
    have hqtake : q ∈ srt.take E := by
      rcases List.mem_append.mp (hsplit ▸ hqsrt) with htake | hdrop
      · exact htake
      · exact absurd (List.mem_map_of_mem (·.1) (hperm.mem_iff.mpr hdrop)) hqnot
    have := hpw.2.2 q hqtake p hpdrop
    unfold tsLe at this
    simpa using this
  · intro T c k v now hcap
    exact cacheSet_eq_at_capacity c k v now hcap

/-- A concrete three-entry cache at capacity 3 (so `evictOldest` removes
`max 1 (3 / 10) = 1` entry, the one with the smallest timestamp). -/
def witnessCache : TrefleCache Nat :=
  { cache := [("x", ⟨1, 5⟩), ("y", ⟨2, 3⟩), ("z", ⟨3, 9⟩)], ttlMs := 1000, maxSize := 3 }

/-- Witness for `C3_cache_capacity_eviction` at a capacity-3 cache and four
insertions. -/
theorem C3_cache_capacity_eviction_witness :
    (applyCacheSets (TrefleCache.mk' 1000 3 : TrefleCache Nat)
        [("a", 1, 0), ("b", 2, 1), ("c", 3, 2), ("d", 4, 3)]).size ≤ 3 ∧
    witnessCache.evictOldest.size = 3 - max 1 (3 / 10) ∧
    witnessCache.set "w" 4 10
      = { witnessCache with cache := mapSet witnessCache.evictOldest.cache "w" ⟨4, 10⟩ } :=
  ⟨C3_cache_capacity_eviction.1 Nat (TrefleCache.mk' 1000 3)
      [("a", 1, 0), ("b", 2, 1), ("c", 3, 2), ("d", 4, 3)] (by decide) (by decide) (by decide),
   (C3_cache_capacity_eviction.2.1 Nat witnessCache (by decide)).1,
   C3_cache_capacity_eviction.2.2 Nat witnessCache "w" 4 10 (by decide)⟩

/-! ## Claim C8: the sliding-window rate limiter -/

/-- C8: with 100 timestamps live inside the current 60-second window,
`canMakeRequest` answers `false`; once the window slides past the oldest of
100 recorded timestamps it answers `true` again; and the cleanup frees
exactly one slot per expired timestamp. -/
theorem C8_rate_limiter_window :
    (∀ (rl : RateLimiter) (now : Int),
       maxRequests ≤ (rl.requestTimes.filter (fun t => now - windowMs < t)).length →
       (rl.canMakeRequest now).1 = false) ∧
    (∀ (rl : RateLimiter) (now : Int),
       rl.requestTimes.length = maxRequests →
       (∃ t ∈ rl.requestTimes, t ≤ now - windowMs) →
       (rl.canMakeRequest now).1 = true) ∧
    (∀ (rl : RateLimiter) (now : Int),
       (rl.canMakeRequest now).2.requestTimes.length =
         rl.requestTimes.length -
           rl.requestTimes.countP (fun t => decide (t ≤ now - windowMs))) := by
  refine ⟨?_, ?_, ?_⟩
  · intro rl now h
    unfold RateLimiter.canMakeRequest RateLimiter.cleanup
    simp only [decide_eq_false_iff_not, Nat.not_lt]
    exact h
  · intro rl now hlen ⟨t, htmem, ht⟩
    unfold RateLimiter.canMakeRequest RateLimiter.cleanup
    simp only [decide_eq_true_eq]
    have hfl : (rl.requestTimes.filter (fun t => now - windowMs < t)).length
        < rl.requestTimes.length := by
      rw [List.length_filter_lt_length_iff_exists]
      exact ⟨t, htmem, by simpa using Int.not_lt.mpr ht⟩
    rw [hlen] at hfl
    exact hfl
  · intro rl now
    unfold RateLimiter.canMakeRequest RateLimiter.cleanup
    simp only []
    have h1 : (rl.requestTimes.filter (fun t => now - windowMs < t)).length
        = rl.requestTimes.countP (fun t => now - windowMs < t) :=
      (List.countP_eq_length_filter _ _).symm
    have h2 := List.length_eq_countP_add_countP
      (p := fun t : Int => decide (t ≤ now - windowMs)) rl.requestTimes
    have h3 : rl.requestTimes.countP (fun t : Int => ¬ (decide (t ≤ now - windowMs)))
        = rl.requestTimes.countP (fun t => now - windowMs < t) := by
      apply List.countP_congr
      intro x _
      simp [Int.not_le]
    show (rl.requestTimes.filter (fun t => now - windowMs < t)).length = _
    omega

/-- Witness for `C8_rate_limiter_window`: 100 requests recorded at instant 0
block the limiter at instant 1; at instant 60001 the window has slid past
them and the limiter admits requests again; cleanup then frees all 100
slots. -/
theorem C8_rate_limiter_window_witness :
    (({ requestTimes := List.replicate 100 0 } : RateLimiter).canMakeRequest 1).1 = false ∧
    (({ requestTimes := List.replicate 100 0 } : RateLimiter).canMakeRequest 60001).1 = true ∧
    (({ requestTimes := List.replicate 100 0 } : RateLimiter).canMakeRequest
        60001).2.requestTimes.length =
      (List.replicate (100 : Nat) (0 : Int)).length -
        (List.replicate (100 : Nat) (0 : Int)).countP (fun t => decide (t ≤ 60001 - windowMs)) :=
  ⟨C8_rate_limiter_window.1 { requestTimes := List.replicate 100 0 } 1 (by decide),
   C8_rate_limiter_window.2.1 { requestTimes := List.replicate 100 0 } 60001 (by decide)
     ⟨0, by decide, by decide⟩,
   C8_rate_limiter_window.2.2 { requestTimes := List.replicate 100 0 } 60001⟩

/-! ## Claim C1: the retry behaviour of `request` -/

/-- Every run of the retry loop makes at most `fuel` underlying calls. -/
theorem requestAttempts_calls_le (outcomes : Nat → Outcome α) :
    ∀ (fuel : Nat) (rl : RateLimiter) (now : Int) (attempt : Nat)
      (lastErr : Option TrefleErrorKind),
      (requestAttempts outcomes rl now attempt fuel lastErr).calls ≤ fuel := by
  intro fuel
  induction fuel with
  | zero => intro rl now attempt lastErr; simp [requestAttempts]
  | succ n ih =>
    intro rl now attempt lastErr
    unfold requestAttempts
    cases classifyAttempt (outcomes attempt) with
    | success d => simp
    | fatal e => simp
    | retryable e =>
      simp only []
      have hcalls := ih (rl.recordRequest (now + RETRY_DELAY_MS * attempt))
        (now + RETRY_DELAY_MS * attempt) (attempt + 1) (some e)
      push_cast at hcalls ⊢
      omega

/-- Model of `request` makes between 1 and `MAX_RETRIES + 1` underlying calls when
the rate-limiter gate admits it. -/
theorem request_calls_le (outcomes : Nat → Outcome α) (rl : RateLimiter) (now : Int) :
    (request outcomes rl now).calls ≤ MAX_RETRIES + 1 := by
  unfold request
  by_cases hgate : (rl.canMakeRequest now).1
  · simp only [hgate, if_pos]
    exact requestAttempts_calls_le outcomes (MAX_RETRIES + 1) _ now 0 none
  · simp [hgate]

/-- Outcome oracle: first call 400, then success (the claim says a 400 must
not be retried; the code retries it). -/
def outcomes400 : Nat → Outcome Nat
  | 0 => .httpError 400
  | _ => .ok 7

/-- Outcome oracle: two 500s, then success. -/
def outcomes500 : Nat → Outcome Nat
  | 0 => .httpError 500
  | 1 => .httpError 500
  | _ => .ok 7

/-- Outcome oracle: always 404. -/
def outcomes404 : Nat → Outcome Nat
  | _ => .httpError 404

/-- C1: concrete behaviour of the retry loop.  Two 500s followed by a 200
succeed after exactly 3 calls with delays `1 * RETRY_DELAY_MS` and
`2 * RETRY_DELAY_MS`; a 404 aborts after exactly 1 call with the
`TrefleNotFoundError` classification; but a 400 — which the claim (and the
spec) declare non-retryable because it is neither 5xx nor a network/timeout
failure — is retried and the run succeeds on the second call: the
`throw new Error("API error: ...")` of client.ts line 129 is swallowed by
the `catch` on line 130, which re-throws only the three classified error
classes and records everything else as `lastError`, continuing the loop. -/
theorem C1_request_retry_behavior :
    ((request outcomes500 emptyRateLimiter 0).result = .ok 7 ∧
     (request outcomes500 emptyRateLimiter 0).calls = 3 ∧
     (request outcomes500 emptyRateLimiter 0).delays = [1000, 2000]) ∧
    ((request outcomes404 emptyRateLimiter 0).result = .error .notFoundError ∧
     (request outcomes404 emptyRateLimiter 0).calls = 1) ∧
    ((request outcomes400 emptyRateLimiter 0).result = .ok 7 ∧
     (request outcomes400 emptyRateLimiter 0).calls = 2 ∧
     (request outcomes400 emptyRateLimiter 0).delays = [1000]) := by
  exact ⟨⟨rfl, rfl, rfl⟩, ⟨rfl, rfl⟩, ⟨rfl, rfl, rfl⟩⟩

/-! ## Claim C10: sticky truncation in `searchPlants` -/

/-- C10: on a miss `searchPlants` caches the response truncated to that
call's limit, and a subsequent call with the same normalized query within
the TTL returns exactly that cached list, whatever its own limit, with no
remote call; concretely, a second call with a larger limit receives fewer
items than its limit, and one with a smaller limit receives more. -/
theorem C10_search_truncation_sticky :
    (∀ (T : Type) (cache : TrefleCache (List T)) (q1 q2 : String) (l1 l2 : Nat)
       (t1 t2 : Nat) (data : List T) (oc2 : Nat → Outcome (List T))
       (rl1 rl2 : RateLimiter),
       (cache.get (normalizeSearchKey q1) t1).1 = none →
       normalizeSearchKey q2 = normalizeSearchKey q1 →
       t2 - t1 ≤ cache.ttlMs →
       ((rl1.canMakeRequest t1)).1 = true →
       (searchPlants cache q1 l1 t1 (fun _ => .ok data) rl1).1 = .ok (data.take l1) ∧
       (searchPlants (searchPlants cache q1 l1 t1 (fun _ => .ok data) rl1).2.1
           q2 l2 t2 oc2 rl2).1 = .ok (data.take l1) ∧
       (searchPlants (searchPlants cache q1 l1 t1 (fun _ => .ok data) rl1).2.1
           q2 l2 t2 oc2 rl2).2.2.1 = 0) ∧
    ((searchPlants (searchPlants (TrefleCache.mk' 300000 200 : TrefleCache (List Nat))
        "rose" 2 0 (fun _ => .ok [1, 2, 3, 4, 5]) emptyRateLimiter).2.1
        "rose" 4 1 (fun _ => .ok [1, 2, 3, 4, 5]) emptyRateLimiter).1 = .ok [1, 2]) ∧
    ((searchPlants (searchPlants (TrefleCache.mk' 300000 200 : TrefleCache (List Nat))
        "rose" 5 0 (fun _ => .ok [1, 2, 3, 4, 5]) emptyRateLimiter).2.1
        "rose" 1 1 (fun _ => .ok [1, 2, 3, 4, 5]) emptyRateLimiter).1
      = .ok [1, 2, 3, 4, 5]) := by
  refine ⟨?_, rfl, rfl⟩
  intro T cache q1 q2 l1 l2 t1 t2 data oc2 rl1 rl2 hmiss hsame httl hgate
  set nq := normalizeSearchKey q1 with hnq
  set c2 := (cache.get nq t1).2 with hc2
  have hpair : cache.get nq t1 = (none, c2) := by
    rw [← hmiss]
  have hc2ttl : c2.ttlMs = cache.ttlMs := by
    rw [hc2]
    unfold TrefleCache.get
    cases mapLookup cache.cache nq with
    | none => rfl
    | some entry =>
      dsimp only
      by_cases hexp : cache.ttlMs < t1 - entry.timestamp
      · rw [if_pos hexp]
      · rw [if_neg hexp]
  have hreq : (request (fun _ => Outcome.ok data) rl1 (t1 : Int)).result = .ok data := by
    unfold request
    rw [if_pos hgate]
    unfold requestAttempts
    rfl
  have hfirst : searchPlants cache q1 l1 t1 (fun _ => .ok data) rl1
      = (.ok (data.take l1),
         c2.set nq (data.take l1) t1,
         (request (fun _ => Outcome.ok data) rl1 (t1 : Int)).calls,
         (request (fun _ => Outcome.ok data) rl1 (t1 : Int)).limiter) := by
    unfold searchPlants
    dsimp only
    rw [← hnq, hpair]
    dsimp only
    rw [hreq]
  have hsetlook : mapLookup (c2.set nq (data.take l1) t1).cache nq
      = some ⟨data.take l1, t1⟩ := by
    by_cases hcap : c2.maxSize ≤ c2.cache.length
    · rw [cacheSet_eq_at_capacity c2 nq (data.take l1) t1 hcap]
      exact mapLookup_mapSet_self _ _ _
    · rw [cacheSet_eq_below c2 nq (data.take l1) t1 (Nat.lt_of_not_le hcap)]
      exact mapLookup_mapSet_self _ _ _
  have hsetttl : (c2.set nq (data.take l1) t1).ttlMs = cache.ttlMs := by
    by_cases hcap : c2.maxSize ≤ c2.cache.length
    · rw [cacheSet_eq_at_capacity c2 nq (data.take l1) t1 hcap]
      exact hc2ttl
    · rw [cacheSet_eq_below c2 nq (data.take l1) t1 (Nat.lt_of_not_le hcap)]
      exact hc2ttl
  have hhit : ((c2.set nq (data.take l1) t1).get nq t2)
      = (some (data.take l1), c2.set nq (data.take l1) t1) := by
    unfold TrefleCache.get
    rw [hsetlook]
    dsimp only
    have hne : ¬ ((c2.set nq (data.take l1) t1).ttlMs < t2 - t1) := by
      rw [hsetttl]
      exact Nat.not_lt.mpr httl
    rw [if_neg hne]
  have hsecond : searchPlants (c2.set nq (data.take l1) t1) q2 l2 t2 oc2 rl2
      = (.ok (data.take l1), c2.set nq (data.take l1) t1, 0, rl2) := by
    unfold searchPlants
    dsimp only
    rw [hsame, hhit]
  rw [hfirst]
  exact ⟨rfl, by rw [hsecond], by rw [hsecond]⟩

/-- Witness for `C10_search_truncation_sticky` at concrete inputs. -/
theorem C10_search_truncation_sticky_witness :
    (searchPlants (TrefleCache.mk' 300000 200 : TrefleCache (List Nat)) "Rose " 2 0
        (fun _ => .ok [1, 2, 3, 4, 5]) emptyRateLimiter).1 = .ok [1, 2] ∧
    (searchPlants (searchPlants (TrefleCache.mk' 300000 200 : TrefleCache (List Nat))
        "Rose " 2 0 (fun _ => .ok [1, 2, 3, 4, 5]) emptyRateLimiter).2.1
        "rose" 4 300000 (fun _ => .ok [1, 2, 3, 4, 5]) emptyRateLimiter).1 = .ok [1, 2] := by
  have h := C10_search_truncation_sticky.1 Nat (TrefleCache.mk' 300000 200) "Rose " "rose"
    2 4 0 300000 [1, 2, 3, 4, 5] (fun _ => .ok [1, 2, 3, 4, 5])
    emptyRateLimiter emptyRateLimiter (by decide) (by decide) (by decide) (by decide)
  exact ⟨by simpa using h.1, by simpa using h.2.1⟩

/-! ## The merge/dedup development of `extractPlantMentions` -/

theorem contains_eq_true_iff {l : List String} {a : String} :
    l.contains a = true ↔ a ∈ l := by
  simp [List.contains]

theorem foldl_addUnique_mem (l : List PlantMention) :
    ∀ (st : List PlantMention × List String) (m : PlantMention), m ∈ st.1 →
      m ∈ (l.foldl addUnique st).1 := by
  induction l with
  | nil => exact fun st m h => h
  | cons x l ih =>
    intro st m h
    apply ih
    unfold addUnique
    by_cases hx : st.2.contains x.normalizedName = true
    · rw [if_pos hx]; exact h
    · rw [if_neg hx]
      exact List.mem_append_left _ h

theorem foldl_addUnique_subset (l : List PlantMention) :
    ∀ (st : List PlantMention × List String) (m : PlantMention),
      m ∈ (l.foldl addUnique st).1 → m ∈ st.1 ∨ m ∈ l := by
  induction l with
  | nil => exact fun st m hm => Or.inl hm
  | cons x l ih =>
    intro st m hm
    rcases ih (addUnique st x) m hm with hin | hin
    · unfold addUnique at hin
      by_cases hx : st.2.contains x.normalizedName = true
      · rw [if_pos hx] at hin
        exact Or.inl hin
      · rw [if_neg hx] at hin
        rcases List.mem_append.mp hin with h1 | h2
        · exact Or.inl h1
        · have hx2 : m = x := List.mem_singleton.mp h2
          exact Or.inr (hx2 ▸ List.mem_cons_self x l)
    · exact Or.inr (List.mem_cons_of_mem _ hin)

/-- Invariant of the merge state: mention names are duplicate-free and all
recorded in `foundNames`. -/
def MergeInv (st : List PlantMention × List String) : Prop :=
  (st.1.map (·.normalizedName)).Nodup ∧
    ∀ n ∈ st.1.map (·.normalizedName), n ∈ st.2

theorem addUnique_inv (st : List PlantMention × List String) (m : PlantMention)
    (h : MergeInv st) : MergeInv (addUnique st m) := by
  obtain ⟨h1, h2⟩ := h
  unfold addUnique
  by_cases hx : st.2.contains m.normalizedName = true
  · rw [if_pos hx]
    exact ⟨h1, h2⟩
  · rw [if_neg hx]
    have hnotfound : m.normalizedName ∉ st.2 := by
      intro hmem
      exact hx (contains_eq_true_iff.mpr hmem)
    constructor
    · simp only [List.map_append, List.map_cons, List.map_nil]
      rw [List.nodup_append]
      refine ⟨h1, List.nodup_singleton _, ?_⟩
      intro n hn
      simp only [List.mem_singleton]
      intro hnm
      exact hnotfound (hnm ▸ h2 n hn)
    · intro n hn
      simp only [List.map_append, List.map_cons, List.map_nil] at hn
      rcases List.mem_append.mp hn with hn1 | hn2
      · exact List.mem_append_left _ (h2 n hn1)
      · exact List.mem_append_right _ (by simpa using hn2)

theorem foldl_addUnique_inv (l : List PlantMention) :
    ∀ (st : List PlantMention × List String), MergeInv st →
      MergeInv (l.foldl addUnique st) := by
  induction l with
  | nil => exact fun st h => h
  | cons x l ih => exact fun st h => ih _ (addUnique_inv st x h)

theorem foldl_addUnique_first (l1 : List PlantMention) :
    ∀ (st : List PlantMention × List String) (m : PlantMention) (l2 : List PlantMention),
      m.normalizedName ∉ st.2 →
      (∀ m2 ∈ l1, m2.normalizedName ≠ m.normalizedName) →
      m ∈ (((l1 ++ m :: l2)).foldl addUnique st).1 := by
  induction l1 with
  | nil =>
    intro st m l2 hst _
    simp only [List.nil_append, List.foldl_cons]
    apply foldl_addUnique_mem
    unfold addUnique
    rw [if_neg (fun hc => hst (contains_eq_true_iff.mp hc))]
    exact List.mem_append_right _ (List.mem_singleton_self m)
  | cons x l1 ih =>
    intro st m l2 hst hne
    simp only [List.cons_append, List.foldl_cons]
    apply ih
    · unfold addUnique
      by_cases hx : st.2.contains x.normalizedName = true
      · rw [if_pos hx]; exact hst
      · rw [if_neg hx]
        intro hmem
        rcases List.mem_append.mp hmem with h1 | h2
        · exact hst h1
        · exact hne x (List.mem_cons_self x l1) (List.mem_singleton.mp h2).symm
    · exact fun m2 hm2 => hne m2 (List.mem_cons_of_mem _ hm2)

/-- The merge state of `extractPlantMentions` is the single fold of the
concatenated three passes. -/
theorem extract_merge_eq (text : String) (reg : ConversationPlantRegistry) :
    extractPlantMentions text reg =
      stableSortBy confLe
        (((findRegistryMatches text reg ++ findExactMatches text ++
           findPatternMatches text)).foldl addUnique ([], [])).1 := by
  unfold extractPlantMentions
  rw [List.foldl_append, List.foldl_append]

/-- C4: for every text and registry state, `extractPlantMentions` returns no
two mentions with the same `normalizedName`, and the list is sorted by
non-decreasing confidence rank (high before medium before low). -/
theorem C4_extract_nodup_sorted :
    ∀ (text : String) (reg : ConversationPlantRegistry),
      ((extractPlantMentions text reg).map (·.normalizedName)).Nodup ∧
      (extractPlantMentions text reg).Pairwise
        (fun a b => confOrd a.confidence ≤ confOrd b.confidence) := by
  intro text reg
  rw [extract_merge_eq]
  set merged := (((findRegistryMatches text reg ++ findExactMatches text ++
    findPatternMatches text)).foldl addUnique ([], [])).1 with hm
  constructor
  · have hinv : MergeInv (((findRegistryMatches text reg ++ findExactMatches text ++
        findPatternMatches text)).foldl addUnique ([], [])) :=
      foldl_addUnique_inv _ ([], []) ⟨List.nodup_nil, by simp⟩
    have hperm : (stableSortBy confLe merged).map (·.normalizedName) ~
        merged.map (·.normalizedName) := (stableSortBy_perm confLe merged).map _
    exact hperm.nodup_iff.mpr hinv.1
  · have hpw := pairwise_stableSortBy confLe
      (fun a b => by
        unfold confLe
        rcases Nat.le_total (confOrd a.confidence) (confOrd b.confidence) with h | h
        · simp [h]
        · simp [h])
      (fun a b c hab hbc => by
        unfold confLe at hab hbc ⊢
        simp only [decide_eq_true_eq] at hab hbc ⊢
        omega)
      merged
    exact hpw.imp (fun hab => by simpa [confLe] using hab)

/-! ## Claim C9: normalization of mention names -/

theorem registryMatches_lower (text : String) (reg : ConversationPlantRegistry) :
    ∀ m ∈ findRegistryMatches text reg,
      jsToLower m.normalizedName = m.normalizedName := by
  intro m hm
  unfold findRegistryMatches at hm
  rw [List.mem_flatMap] at hm
  obtain ⟨plant, _, hmem⟩ := hm
  dsimp only at hmem
  rcases List.mem_append.mp hmem with h1 | hgen
  · rcases List.mem_append.mp h1 with hcn | hsci
    · cases hcno : plant.commonName with
      | none => rw [hcno] at hcn; cases hcn
      | some cn =>
        rw [hcno] at hcn
        dsimp only at hcn
        by_cases hc : cn ≠ "" ∧ strIncludes (jsToLower text) (jsToLower cn) = true
        · rw [if_pos hc] at hcn
          rw [List.mem_singleton.mp hcn]
          exact jsToLower_idem cn
        · rw [if_neg hc] at hcn; cases hcn
    · by_cases hc : strIncludes (jsToLower text) (jsToLower plant.scientificName) = true
      · rw [if_pos hc] at hsci
        rw [List.mem_singleton.mp hsci]
        exact jsToLower_idem plant.scientificName
      · rw [if_neg hc] at hsci; cases hsci
  · by_cases hc : strIncludes (jsToLower text) (jsToLower plant.genus) = true ∧
        3 < (jsToLower plant.genus).length
    · rw [if_pos hc] at hgen
      rw [List.mem_singleton.mp hgen]
      exact jsToLower_idem plant.genus
    · rw [if_neg hc] at hgen; cases hgen

theorem exactMatches_lower (text : String) :
    ∀ m ∈ findExactMatches text, jsToLower m.normalizedName = m.normalizedName := by
  intro m hm
  unfold findExactMatches at hm
  rw [List.mem_filterMap] at hm
  obtain ⟨name, _, hf⟩ := hm
  unfold exactMatchFor at hf
  by_cases hc : containsWord name (jsToLower text) = true
  · rw [if_pos hc] at hf
    cases hf
    exact jsToLower_idem name
  · rw [if_neg hc] at hf; cases hf

theorem processCandidate_lower (text : String) (st : List PlantMention × List String)
    (cap : String) (h : ∀ m ∈ st.1, jsToLower m.normalizedName = m.normalizedName) :
    ∀ m ∈ (processCandidate text st cap).1,
      jsToLower m.normalizedName = m.normalizedName := by
  intro m hm
  unfold processCandidate at hm
  dsimp only at hm
  by_cases h1 : (jsTrim cap).length < 3 ∨ 30 < (jsTrim cap).length
  · rw [if_pos h1] at hm
    exact h m hm
  · rw [if_neg h1] at hm
    by_cases h2 : st.2.contains (jsToLower (jsTrim cap)) = true
    · rw [if_pos h2] at hm
      exact h m hm
    · rw [if_neg h2] at hm
      by_cases h3 : isCommonWord (jsToLower (jsTrim cap)) = true
      · rw [if_pos h3] at hm
        exact h m hm
      · rw [if_neg h3] at hm
        by_cases h4 : assessPlantNameConfidence (jsToLower (jsTrim cap)) text ≠ Confidence.low ∨
            COMMON_PLANT_NAMES.contains (jsToLower (jsTrim cap)) = true
        · rw [if_pos h4] at hm
          rcases List.mem_append.mp hm with hold | hnew
          · exact h m hold
          · rw [List.mem_singleton.mp hnew]
            exact jsToLower_idem (jsTrim cap)
        · rw [if_neg h4] at hm
          exact h m hm

theorem foldl_processCandidate_lower (text : String) (caps : List String) :
    ∀ (st : List PlantMention × List String),
      (∀ m ∈ st.1, jsToLower m.normalizedName = m.normalizedName) →
      ∀ m ∈ (caps.foldl (processCandidate text) st).1,
        jsToLower m.normalizedName = m.normalizedName := by
  induction caps with
  | nil => exact fun st h => h
  | cons cap caps ih =>
    exact fun st h => ih _ (processCandidate_lower text st cap h)

theorem patternMatches_lower (text : String) :
    ∀ m ∈ findPatternMatches text, jsToLower m.normalizedName = m.normalizedName := by
  unfold findPatternMatches
  have haux : ∀ (ps : List Pat) (st : List PlantMention × List String),
      (∀ m ∈ st.1, jsToLower m.normalizedName = m.normalizedName) →
      ∀ m ∈ (ps.foldl
          (fun st p => (patternCaptures p text).foldl (processCandidate text) st) st).1,
        jsToLower m.normalizedName = m.normalizedName := by
    intro ps
    induction ps with
    | nil => exact fun st h => h
    | cons p ps ih =>
      exact fun st h => ih _ (foldl_processCandidate_lower text (patternCaptures p text) st h)
  exact haux PLANT_PATTERNS ([], []) (by simp)

/-- Counterexample to C9 as stated: on the text `"the foo  bar plant"` (with
an empty registry) the extractor returns a pattern mention whose
`normalizedName` keeps the internal double space — the extraction path never
collapses internal whitespace (`normalizePlantName`, which would, is not
called by it). -/
theorem C9_counterexample :
    ¬ (∀ m ∈ extractPlantMentions "the foo  bar plant" emptyRegistry,
        specCanonicalName m.normalizedName) := by
  decide

/-- C9 (amended): every mention's `normalizedName` is lowercase (it is
always produced by `toLowerCase`); trimming holds for the vocabulary and
pattern passes but internal whitespace runs are not collapsed, and
registry-pass names are lowercased as-is. -/
theorem C9_mention_names_lowercase :
    ∀ (text : String) (reg : ConversationPlantRegistry),
      ∀ m ∈ extractPlantMentions text reg,
        jsToLower m.normalizedName = m.normalizedName := by
  intro text reg m hm
  rw [extract_merge_eq] at hm
  have hm2 := mem_stableSortBy.mp hm
  rcases foldl_addUnique_subset _ _ _ hm2 with h0 | hsrc
  · cases h0
  · rcases List.mem_append.mp hsrc with h12 | hpat
    · rcases List.mem_append.mp h12 with hreg | hex
      · exact registryMatches_lower text reg m hreg
      · exact exactMatches_lower text m hex
    · exact patternMatches_lower text m hpat

/-! ## Claim C5: vocabulary names as standalone words -/

theorem vocab_names_lower : ∀ n ∈ COMMON_PLANT_NAMES, jsToLower n = n := by decide

theorem vocab_nodup : COMMON_PLANT_NAMES.Nodup := by decide

/-- The registry profile used by the C5 counterexample: genus `Ficus`
(length > 3, and `"ficus"` is also in the static vocabulary). -/
def ficusPlant : ProcessedPlantData :=
  { id := 686356, slug := "ficus-benghalensis", scientificName := "Ficus benghalensis",
    commonName := none, genus := "Ficus" }

/-- A registry holding the `Ficus` profile. -/
def regFicus : ConversationPlantRegistry :=
  emptyRegistry.addPlant "ficus-benghalensis" ficusPlant

/-- Counterexample to C5 as stated: `"ficus"` is a static-vocabulary name
and occurs in `"my ficus"` as a standalone word, yet with a registry holding
a plant of genus `Ficus` the registry pass claims the name first at `medium`
confidence (genus match), and deduplication drops the exact-vocabulary
`high` mention, so no `high`-confidence mention with that name is
returned. -/
theorem C5_counterexample :
    "ficus" ∈ COMMON_PLANT_NAMES ∧
    containsWord "ficus" (jsToLower "my ficus") = true ∧
    ¬ (∃ m ∈ extractPlantMentions "my ficus" regFicus,
        m.normalizedName = "ficus" ∧ m.confidence = Confidence.high) := by
  refine ⟨by decide, by decide, by decide⟩

/-- C5 (amended): for every text containing a static-vocabulary name as a
standalone word, provided no registry-pass mention carries that same
`normalizedName` (in particular whenever the conversation registry is
empty), `extractPlantMentions` returns a mention with that `normalizedName`
and `confidence = high` (source `common_name`). -/
theorem C5_vocab_word_high :
    ∀ (text : String) (reg : ConversationPlantRegistry) (name : String),
      name ∈ COMMON_PLANT_NAMES →
      containsWord name (jsToLower text) = true →
      (∀ m ∈ findRegistryMatches text reg, m.normalizedName ≠ name) →
      ∃ m ∈ extractPlantMentions text reg,
        m.normalizedName = name ∧ m.confidence = Confidence.high ∧
        m.source = MentionSource.common_name := by
  intro text reg name hvocab hword hreg
  have hlow : jsToLower name = name := vocab_names_lower name hvocab
  set mstar : PlantMention :=
    { originalText := name, normalizedName := jsToLower name,
      confidence := Confidence.high, source := MentionSource.common_name } with hmstar
  have hsorted_mem : name ∈ sortedPlantNames := mem_stableSortBy.mpr hvocab
  have hsorted_nodup : sortedPlantNames.Nodup :=
    ((stableSortBy_perm lenDescLe COMMON_PLANT_NAMES).nodup_iff).mpr vocab_nodup
  obtain ⟨s1, s2, hsplit⟩ := List.append_of_mem hsorted_mem
  have hnots1 : name ∉ s1 := by
    rw [hsplit] at hsorted_nodup
    have hd := List.disjoint_of_nodup_append hsorted_nodup
    exact fun hmem => hd hmem (List.mem_cons_self name s2)
  have hstarf : exactMatchFor (jsToLower text) name = some mstar := by
    unfold exactMatchFor
    rw [if_pos hword, hmstar]
  have hex : findExactMatches text =
      s1.filterMap (exactMatchFor (jsToLower text)) ++ mstar ::
        s2.filterMap (exactMatchFor (jsToLower text)) := by
    unfold findExactMatches
    rw [hsplit, List.filterMap_append, List.filterMap_cons, hstarf]
  have hcomb : findRegistryMatches text reg ++ findExactMatches text ++
      findPatternMatches text
      = (findRegistryMatches text reg ++ s1.filterMap (exactMatchFor (jsToLower text))) ++
        mstar :: (s2.filterMap (exactMatchFor (jsToLower text)) ++ findPatternMatches text) := by
    rw [hex]
    simp [List.append_assoc]
  have hmlow : mstar.normalizedName = name := by
    rw [hmstar]
    exact hlow
  have hprior : ∀ m2 ∈ findRegistryMatches text reg ++
      s1.filterMap (exactMatchFor (jsToLower text)),
      m2.normalizedName ≠ mstar.normalizedName := by
    intro m2 hm2
    rw [hmlow]
    rcases List.mem_append.mp hm2 with hr | hs
    · exact hreg m2 hr
    · rw [List.mem_filterMap] at hs
      obtain ⟨n2, hn2, hfn2⟩ := hs
      unfold exactMatchFor at hfn2
      by_cases hc : containsWord n2 (jsToLower text) = true
      · rw [if_pos hc] at hfn2
        cases hfn2
        show jsToLower n2 ≠ name
        have hn2v : n2 ∈ COMMON_PLANT_NAMES := by
          have hn2s : n2 ∈ sortedPlantNames := by
            rw [hsplit]
            exact List.mem_append_left _ hn2
          exact mem_stableSortBy.mp hn2s
        rw [vocab_names_lower n2 hn2v]
        exact fun he => hnots1 (he ▸ hn2)
      · rw [if_neg hc] at hfn2
        cases hfn2
  have hmem : mstar ∈
      (((findRegistryMatches text reg ++ findExactMatches text ++
        findPatternMatches text)).foldl addUnique ([], [])).1 := by
    rw [hcomb]
    exact foldl_addUnique_first _ ([], []) _ _ (by simp) hprior
  refine ⟨mstar, ?_, hmlow, rfl, rfl⟩
  rw [extract_merge_eq]
  exact mem_stableSortBy.mpr hmem

/-- Witness for `C5_vocab_word_high`: the spec's own end-to-end scenario
text `"my tomato plant"` with an empty registry yields the `tomato` mention
at high confidence. -/
theorem C5_vocab_word_high_witness :
    ∃ m ∈ extractPlantMentions "my tomato plant" emptyRegistry,
      m.normalizedName = "tomato" ∧ m.confidence = Confidence.high ∧
      m.source = MentionSource.common_name :=
  C5_vocab_word_high "my tomato plant" emptyRegistry "tomato" (by decide) (by decide)
    (by decide)

/-- Mention value produced by the exact-vocabulary pass on
`"my tomato plant"`. -/
def tomatoMention : PlantMention :=
  { originalText := "tomato", normalizedName := "tomato",
    confidence := Confidence.high, source := MentionSource.common_name }

/-- Witness for `C9_mention_names_lowercase` at the tomato mention of the
concrete extraction. -/
theorem C9_mention_names_lowercase_witness :
    jsToLower tomatoMention.normalizedName = tomatoMention.normalizedName :=
  C9_mention_names_lowercase "my tomato plant" emptyRegistry tomatoMention (by decide)

end GreenThumb
